import Mathlib

/-!
Verification of the fuzzy matching and consumable registry core of the
Sheets_edit toolbox. The definitions below are a shallow embedding of
`scripts/4_Change_name.py` (FileRegistry, get_rows, the rename loop) and of
`scripts/1.3_xml_placeholders.py` (clean_text, parse_timestamp_str,
load_transcript_json, best_match, the alignment loop). Paths are modelled as
plain strings, filesystems as lists of existing paths, Python dicts as
insertion-ordered association lists, rapidfuzz scorers as abstract
`String → String → Nat` parameters (their results are 0..100 scores), and
float seconds as rationals.
-/

/-- Python whitespace as tested by `str.strip` / regex `\s` (ASCII range). -/
def pyIsSpace (c : Char) : Bool :=
  c = ' ' ∨ c = '\t' ∨ c = '\n' ∨ c = '\r' ∨ c = '\x0b' ∨ c = '\x0c'

/-- Python `str.strip()` on the character list. -/
def pyStripList (l : List Char) : List Char :=
  ((l.dropWhile pyIsSpace).reverse.dropWhile pyIsSpace).reverse

/-- Python `str.strip()`. -/
def pyStrip (s : String) : String :=
  ⟨pyStripList s.data⟩

/-- Python `str.lower()` (character-wise ASCII lowering). -/
def pyLower (s : String) : String :=
  ⟨s.data.map Char.toLower⟩

/-- Python `pathlib.Path(p).name`: the part after the last slash. -/
def baseName (s : String) : String :=
  ⟨(s.data.reverse.takeWhile (fun c => c ≠ '/')).reverse⟩

/-- Python `PurePath` stem/suffix split of a file name: the split happens at
the last dot, provided it is neither the first nor the last character. -/
def splitExt (name : List Char) : List Char × List Char :=
  let n := name.length
  let k := (name.reverse.takeWhile (fun c => c ≠ '.')).length
  if k < n ∧ 0 < n - 1 - k ∧ 0 < k then
    (name.take (n - 1 - k), name.drop (n - 1 - k))
  else (name, [])

/-- Python `Path(name).stem` for a bare file name. -/
def stemOf (s : String) : String :=
  ⟨(splitExt s.data).1⟩

/-- Python `Path(name).suffix` for a bare file name. -/
def suffixOf (s : String) : String :=
  ⟨(splitExt s.data).2⟩

/-- String order used to model Python `sorted` on paths, as a Bool. -/
def sle (a b : String) : Bool :=
  decide (a ≤ b)

/-- Python `string.punctuation` (32 ASCII characters). -/
def pyPunctChars : List Char :=
  "!\"#$%&\x27()*+,-./:;<=>?@[\\]^_`\x7b|\x7d~".data

/-- Membership in `string.punctuation`. -/
def isPunct (c : Char) : Bool :=
  pyPunctChars.contains c

/-- Splits a character list into maximal runs of non-whitespace characters,
accumulating the current word in reverse in `acc`. Together with
`List.intercalate [' ']` this implements Python
`re.sub(r"\s+", " ", s).strip()`. -/
def wordsAux : List Char → List Char → List (List Char)
  | [], acc => if acc = [] then [] else [acc.reverse]
  | c :: cs, acc =>
    if pyIsSpace c then
      if acc = [] then wordsAux cs [] else acc.reverse :: wordsAux cs []
    else wordsAux cs (c :: acc)

/-- Words (maximal non-whitespace runs) of a character list. -/
def pyWords (l : List Char) : List (List Char) :=
  wordsAux l []

/-- Joins words with single spaces. -/
def joinSp : List (List Char) → List Char
  | [] => []
  | [w] => w
  | w :: rest => w ++ ' ' :: joinSp rest

/-- Python `re.sub(r"\s+", " ", s).strip()` on a character list. -/
def collapseWs (l : List Char) : List Char :=
  joinSp (pyWords l)

/-- Embeds `clean_text` of `1.3_xml_placeholders.py`: lowercase, replace every
`string.punctuation` character with a space, collapse whitespace runs to a
single space and strip the ends. It is a pure function of its argument. -/
def clean_text (s : String) : String :=
  let lowered := s.data.map Char.toLower
  let depunct := lowered.map (fun c => if isPunct c then ' ' else c)
  ⟨collapseWs depunct⟩

theorem toNat_ofNat_valid (n : Nat) (h : n.isValidChar) :
    (Char.ofNat n).toNat = n := by
  simp only [Char.ofNat, h, dite_true, Char.ofNatAux, Char.toNat]
  rfl

theorem isUpper_iff_toNat (c : Char) :
    c.isUpper = true ↔ (65 ≤ c.toNat ∧ c.toNat ≤ 90) := by
  rw [show c.isUpper = (decide (65 ≤ c.toNat) && decide (c.toNat ≤ 90)) from rfl]
  simp

theorem charLower_idem (c : Char) :
    Char.toLower (Char.toLower c) = Char.toLower c := by
  unfold Char.toLower
  by_cases h : c.toNat ≥ 65 ∧ c.toNat ≤ 90
  · rw [if_pos h]
    have ht : (Char.ofNat (c.toNat + 32)).toNat = c.toNat + 32 :=
      toNat_ofNat_valid _ (Or.inl (by omega))
    rw [if_neg (by omega)]
  · rw [if_neg h, if_neg h]

theorem charLower_not_upper (c : Char) :
    (Char.toLower c).isUpper = false := by
  rw [← Bool.not_eq_true, isUpper_iff_toNat]
  unfold Char.toLower
  by_cases h : c.toNat ≥ 65 ∧ c.toNat ≤ 90
  · rw [if_pos h]
    have ht : (Char.ofNat (c.toNat + 32)).toNat = c.toNat + 32 :=
      toNat_ofNat_valid _ (Or.inl (by omega))
    omega
  · rw [if_neg h]
    omega

/-- Every word produced by `wordsAux` is nonempty, free of whitespace, and its
characters satisfy any property `P` holding for the non-whitespace input
characters and for the accumulator. -/
theorem wordsAux_good (P : Char → Prop) :
    ∀ (l acc : List Char), (∀ c ∈ l, pyIsSpace c = true ∨ P c) →
    (∀ c ∈ acc, P c ∧ pyIsSpace c = false) →
    ∀ w ∈ wordsAux l acc, w ≠ [] ∧ ∀ c ∈ w, P c ∧ pyIsSpace c = false
  | [], acc, _, hacc, w, hw => by
    unfold wordsAux at hw
    by_cases h : acc = []
    · simp [h] at hw
    · simp only [h, if_false, List.mem_singleton] at hw
      subst hw
      refine ⟨by simpa using h, ?_⟩
      intro c hc
      exact hacc c (List.mem_reverse.mp hc)
  | c :: cs, acc, hl, hacc, w, hw => by
    unfold wordsAux at hw
    by_cases hsp : pyIsSpace c
    · simp only [hsp, if_true] at hw
      by_cases h : acc = []
      · simp only [h, if_true] at hw
        exact wordsAux_good P cs [] (fun d hd => hl d (List.mem_cons_of_mem _ hd))
          (by simp) w hw
      · simp only [h, if_false, List.mem_cons] at hw
        rcases hw with hw | hw
        · subst hw
          refine ⟨by simpa using h, ?_⟩
          intro d hd
          exact hacc d (List.mem_reverse.mp hd)
        · exact wordsAux_good P cs [] (fun d hd => hl d (List.mem_cons_of_mem _ hd))
            (by simp) w hw
    · simp only [hsp, if_false] at hw
      have hc : P c := by
        rcases hl c (List.mem_cons_self _ _) with h | h
        · exact absurd h (by simpa using hsp)
        · exact h
      exact wordsAux_good P cs (c :: acc)
        (fun d hd => hl d (List.mem_cons_of_mem _ hd))
        (by
          intro d hd
          rcases List.mem_cons.mp hd with h | h
          · subst h
            exact ⟨hc, by simpa using hsp⟩
          · exact hacc d h) w hw

/-- Scanning a whitespace-free word prepends it (reversed) to the accumulator. -/
theorem wordsAux_word : ∀ (w l acc : List Char),
    (∀ c ∈ w, pyIsSpace c = false) →
    wordsAux (w ++ l) acc = wordsAux l (w.reverse ++ acc)
  | [], l, acc, _ => by simp [wordsAux]
  | c :: cs, l, acc, hw => by
    have hc : pyIsSpace c = false := hw c (List.mem_cons_self _ _)
    simp only [List.cons_append, wordsAux, hc, Bool.false_eq_true, if_false]
    rw [show cs.append l = cs ++ l from rfl,
      wordsAux_word cs l (c :: acc) (fun d hd => hw d (List.mem_cons_of_mem _ hd))]
    simp

/-- Splitting the space-joined list of nonempty whitespace-free words gives
back exactly those words. -/
theorem pyWords_joinSp : ∀ ws : List (List Char),
    (∀ w ∈ ws, w ≠ [] ∧ ∀ c ∈ w, pyIsSpace c = false) →
    pyWords (joinSp ws) = ws
  | [], _ => rfl
  | [w], h => by
    obtain ⟨hne, hns⟩ := h w (List.mem_singleton_self _)
    show wordsAux (joinSp [w]) [] = [w]
    have : joinSp [w] = w ++ [] := by simp [joinSp]
    rw [this, wordsAux_word w [] [] hns]
    unfold wordsAux
    simp [hne]
  | w :: w' :: rest, h => by
    obtain ⟨hne, hns⟩ := h w (List.mem_cons_self _ _)
    have hrest : ∀ v ∈ w' :: rest, v ≠ [] ∧ ∀ c ∈ v, pyIsSpace c = false :=
      fun v hv => h v (List.mem_cons_of_mem _ hv)
    show wordsAux (joinSp (w :: w' :: rest)) [] = w :: w' :: rest
    have hj : joinSp (w :: w' :: rest) = w ++ ' ' :: joinSp (w' :: rest) := rfl
    rw [hj, wordsAux_word w _ [] hns]
    unfold wordsAux
    have hsp : pyIsSpace ' ' = true := by decide
    rw [hsp]
    simp only [List.append_nil, if_true]
    have hwne : w.reverse ≠ [] := by simpa using hne
    simp only [hwne, if_false, List.reverse_reverse]
    exact congrArg (w :: ·) (pyWords_joinSp (w' :: rest) hrest)

/-- Members of a space-join are a space or a member of one of the words. -/
theorem mem_joinSp : ∀ (ws : List (List Char)) (c : Char), c ∈ joinSp ws →
    c = ' ' ∨ ∃ w ∈ ws, c ∈ w
  | [], c, h => by simp [joinSp] at h
  | [w], c, h => Or.inr ⟨w, List.mem_singleton_self _, h⟩
  | w :: w' :: rest, c, h => by
    have hj : joinSp (w :: w' :: rest) = w ++ ' ' :: joinSp (w' :: rest) := rfl
    rw [hj] at h
    rcases List.mem_append.mp h with h | h
    · exact Or.inr ⟨w, List.mem_cons_self _ _, h⟩
    · rcases List.mem_cons.mp h with h | h
      · exact Or.inl h
      · rcases mem_joinSp (w' :: rest) c h with h | ⟨v, hv, hc⟩
        · exact Or.inl h
        · exact Or.inr ⟨v, List.mem_cons_of_mem _ hv, hc⟩

/-- Character-level goodness of a cleaned token: no punctuation, fixed by
lowercasing, not an uppercase letter. -/
def cleanChar (c : Char) : Prop :=
  isPunct c = false ∧ Char.toLower c = c ∧ c.isUpper = false

/-- The depunctuated lowering used by `clean_text`. -/
def depunctLower (s : String) : List Char :=
  (s.data.map Char.toLower).map (fun c => if isPunct c then ' ' else c)

theorem clean_text_data (s : String) :
    (clean_text s).data = joinSp (pyWords (depunctLower s)) := rfl

theorem depunctLower_chars (s : String) :
    ∀ c ∈ depunctLower s, pyIsSpace c = true ∨ cleanChar c := by
  intro c hc
  rcases List.mem_map.mp hc with ⟨c0, hc0, hdef⟩
  rcases List.mem_map.mp hc0 with ⟨c1, _, hlow⟩
  by_cases hp : isPunct c0
  · left
    rw [← hdef]
    simp [hp]
    decide
  · right
    have hcc : c = c0 := by rw [← hdef]; simp [hp]
    subst hcc
    subst hlow
    exact ⟨by simpa using hp, charLower_idem c1, charLower_not_upper c1⟩

theorem clean_text_words_good (s : String) :
    ∀ w ∈ pyWords (depunctLower s),
      w ≠ [] ∧ ∀ c ∈ w, cleanChar c ∧ pyIsSpace c = false :=
  wordsAux_good cleanChar (depunctLower s) [] (depunctLower_chars s) (by simp)

theorem map_id_of_mem {f : Char → Char} {l : List Char}
    (h : ∀ c ∈ l, f c = c) : l.map f = l := by
  rw [List.map_congr_left h]
  exact List.map_id' l

theorem clean_text_idem (s : String) :
    clean_text (clean_text s) = clean_text s := by
  have hgood := clean_text_words_good s
  set ws := pyWords (depunctLower s) with hws
  have hmem : ∀ c ∈ joinSp ws, c = ' ' ∨ (cleanChar c ∧ pyIsSpace c = false) := by
    intro c hc
    rcases mem_joinSp ws c hc with h | ⟨w, hw, hcw⟩
    · exact Or.inl h
    · exact Or.inr ((hgood w hw).2 c hcw)
  have hlow : (joinSp ws).map Char.toLower = joinSp ws := by
    apply map_id_of_mem
    intro c hc
    rcases hmem c hc with h | ⟨⟨_, hfix, _⟩, _⟩
    · subst h; decide
    · exact hfix
  have hdep : (joinSp ws).map (fun c => if isPunct c then ' ' else c) = joinSp ws := by
    apply map_id_of_mem
    intro c hc
    rcases hmem c hc with h | ⟨⟨hp, _, _⟩, _⟩
    · subst h; decide
    · simp [hp]
  have hwords : pyWords (joinSp ws) = ws :=
    pyWords_joinSp ws (fun w hw => ⟨(hgood w hw).1, fun c hc => ((hgood w hw).2 c hc).2⟩)
  show (⟨collapseWs (((clean_text s).data.map Char.toLower).map
      (fun c => if isPunct c then ' ' else c))⟩ : String) = clean_text s
  rw [clean_text_data, hlow, hdep]
  show (⟨joinSp (pyWords (joinSp ws))⟩ : String) = clean_text s
  rw [hwords, ← clean_text_data]

/-- Adjacent characters are never both whitespace. -/
def noAdjSpace (l : List Char) : Prop :=
  List.Chain' (fun a b => ¬(pyIsSpace a = true ∧ pyIsSpace b = true)) l

theorem noAdjSpace_of_nonspace : ∀ l : List Char,
    (∀ c ∈ l, pyIsSpace c = false) → noAdjSpace l
  | [], _ => List.chain'_nil
  | [a], _ => List.chain'_singleton a
  | a :: b :: t, h => by
    refine List.chain'_cons.mpr ⟨?_, ?_⟩
    · intro ⟨ha, _⟩
      rw [h a (List.mem_cons_self _ _)] at ha
      exact Bool.false_ne_true ha
    · exact noAdjSpace_of_nonspace (b :: t) fun c hc =>
        h c (List.mem_cons_of_mem _ hc)

theorem joinSp_ne_nil {w : List Char} (rest : List (List Char)) (h : w ≠ []) :
    joinSp (w :: rest) ≠ [] := by
  cases rest with
  | nil => exact h
  | cons w' rs =>
    show w ++ ' ' :: joinSp (w' :: rs) ≠ []
    simp

theorem joinSp_head {w : List Char} (rest : List (List Char)) (h : w ≠ []) :
    (joinSp (w :: rest)).head? = w.head? := by
  cases rest with
  | nil => rfl
  | cons w' rs =>
    show (w ++ ' ' :: joinSp (w' :: rs)).head? = w.head?
    rw [List.head?_append]
    cases w with
    | nil => exact absurd rfl h
    | cons c cs => rfl

theorem joinSp_noAdjSpace : ∀ ws : List (List Char),
    (∀ w ∈ ws, w ≠ [] ∧ ∀ c ∈ w, pyIsSpace c = false) →
    noAdjSpace (joinSp ws)
  | [], _ => List.chain'_nil
  | [w], h => noAdjSpace_of_nonspace w (h w (List.mem_singleton_self _)).2
  | w :: w' :: rest, h => by
    obtain ⟨hne, hns⟩ := h w (List.mem_cons_self _ _)
    obtain ⟨hne', hns'⟩ := h w' (List.mem_cons_of_mem _ (List.mem_cons_self _ _))
    have hrest : ∀ v ∈ w' :: rest, v ≠ [] ∧ ∀ c ∈ v, pyIsSpace c = false :=
      fun v hv => h v (List.mem_cons_of_mem _ hv)
    show noAdjSpace (w ++ ' ' :: joinSp (w' :: rest))
    refine List.chain'_append.mpr ⟨noAdjSpace_of_nonspace w hns, ?_, ?_⟩
    · refine List.chain'_cons'.mpr ⟨?_, joinSp_noAdjSpace (w' :: rest) hrest⟩
      intro y hy
      rw [joinSp_head rest hne'] at hy
      have hyw : y ∈ w' := by
        cases w' with
        | nil => exact absurd rfl hne'
        | cons c cs =>
          have hd : c = y := Option.some.inj (Option.mem_def.mp hy)
          rw [← hd]
          exact List.mem_cons_self _ _
      intro ⟨_, hsp⟩
      rw [hns' y hyw] at hsp
      exact Bool.false_ne_true hsp
    · intro x hx y _
      have hxw : x ∈ w := List.mem_of_mem_getLast? hx
      intro ⟨hsp, _⟩
      rw [hns x hxw] at hsp
      exact Bool.false_ne_true hsp

theorem joinSp_head_nonspace : ∀ (ws : List (List Char)) (c : Char),
    (∀ w ∈ ws, w ≠ [] ∧ ∀ c' ∈ w, pyIsSpace c' = false) →
    (joinSp ws).head? = some c → pyIsSpace c = false
  | [], c, _, h => by simp [joinSp] at h
  | w :: rest, c, hg, h => by
    obtain ⟨hne, hns⟩ := hg w (List.mem_cons_self _ _)
    rw [joinSp_head rest hne] at h
    exact hns c (by
      cases w with
      | nil => exact absurd rfl hne
      | cons d ds =>
        have hd : d = c := Option.some.inj h
        rw [← hd]
        exact List.mem_cons_self _ _)

theorem joinSp_getLast_nonspace : ∀ (ws : List (List Char)) (c : Char),
    (∀ w ∈ ws, w ≠ [] ∧ ∀ c' ∈ w, pyIsSpace c' = false) →
    (joinSp ws).getLast? = some c → pyIsSpace c = false
  | [], c, _, h => by simp [joinSp] at h
  | [w], c, hg, h => by
    obtain ⟨hne, hns⟩ := hg w (List.mem_singleton_self _)
    exact hns c (List.mem_of_mem_getLast? h)
  | w :: w' :: rest, c, hg, h => by
    obtain ⟨hne', _⟩ := hg w' (List.mem_cons_of_mem _ (List.mem_cons_self _ _))
    have hrest : ∀ v ∈ w' :: rest, v ≠ [] ∧ ∀ c' ∈ v, pyIsSpace c' = false :=
      fun v hv => hg v (List.mem_cons_of_mem _ hv)
    have hj : joinSp (w :: w' :: rest) = (w ++ [' ']) ++ joinSp (w' :: rest) := by
      show w ++ ' ' :: joinSp (w' :: rest) = (w ++ [' ']) ++ joinSp (w' :: rest)
      simp
    rw [hj, List.getLast?_append_of_ne_nil _ (joinSp_ne_nil rest hne')] at h
    exact joinSp_getLast_nonspace (w' :: rest) c hrest h

/-- C4: the text normalizer `clean_text` used before fuzzy comparison is a
pure function whose result, for every input string, contains no URL (no
`://` can survive since `:` and `/` are punctuation and every punctuation
character is replaced by a space), contains no punctuation and no uppercase
letter, has no two adjacent whitespace characters and no leading or trailing
whitespace, and applying `clean_text` a second time returns the same string. -/
theorem claim_C4_clean_text_contract (s : String) :
    clean_text (clean_text s) = clean_text s
    ∧ (∀ c ∈ (clean_text s).data, isPunct c = false ∧ c.isUpper = false)
    ∧ ¬ ("://".data <:+: (clean_text s).data)
    ∧ noAdjSpace (clean_text s).data
    ∧ (∀ c, (clean_text s).data.head? = some c → pyIsSpace c = false)
    ∧ (∀ c, (clean_text s).data.getLast? = some c → pyIsSpace c = false) := by
  have hgood := clean_text_words_good s
  have hgood' : ∀ w ∈ pyWords (depunctLower s),
      w ≠ [] ∧ ∀ c ∈ w, pyIsSpace c = false :=
    fun w hw => ⟨(hgood w hw).1, fun c hc => ((hgood w hw).2 c hc).2⟩
  have hmem : ∀ c ∈ (clean_text s).data, isPunct c = false ∧ c.isUpper = false := by
    intro c hc
    rw [clean_text_data] at hc
    rcases mem_joinSp _ c hc with h | ⟨w, hw, hcw⟩
    · subst h
      exact ⟨by decide, by decide⟩
    · obtain ⟨⟨hp, _, hu⟩, _⟩ := (hgood w hw).2 c hcw
      exact ⟨hp, hu⟩
  refine ⟨clean_text_idem s, hmem, ?_, ?_, ?_, ?_⟩
  · intro ⟨l1, l2, hsplit⟩
    have hcolon : ':' ∈ (clean_text s).data := by
      rw [← hsplit]
      simp [List.mem_append]
    have := (hmem ':' hcolon).1
    revert this
    decide
  · rw [clean_text_data]
    exact joinSp_noAdjSpace _ hgood'
  · intro c hc
    rw [clean_text_data] at hc
    exact joinSp_head_nonspace _ c hgood' hc
  · intro c hc
    rw [clean_text_data] at hc
    exact joinSp_getLast_nonspace _ c hgood' hc

/-- Witness for C4 at a concrete input: the contract instantiated at a string
with uppercase letters, a URL and messy whitespace. -/
theorem claim_C4_witness :
    clean_text (clean_text "  Check https://x.org, NOW!!  ")
        = clean_text "  Check https://x.org, NOW!!  "
    ∧ pyIsSpace 'c' = false := by
  refine ⟨(claim_C4_clean_text_contract "  Check https://x.org, NOW!!  ").1, ?_⟩
  exact (claim_C4_clean_text_contract "  Check https://x.org, NOW!!  ").2.2.2.2.1 'c'
    (by decide)

/-- Looks up a key in an insertion-ordered association map (a Python dict). -/
def lookupM (m : List (String × List String)) (k : String) : Option (List String) :=
  (m.find? (fun e => e.1 == k)).map (fun e => e.2)

/-- The bucket under a key, `[]` when the key is absent. -/
def bucketOf (m : List (String × List String)) (k : String) : List String :=
  (lookupM m k).getD []

/-- Python `mapping.setdefault(key, []).append(path)`: append to the existing
bucket, or add a new key at the end of the dict. -/
def appendAt (m : List (String × List String)) (k p : String) :
    List (String × List String) :=
  match m with
  | [] => [(k, [p])]
  | e :: rest =>
    if e.1 = k then (e.1, e.2 ++ [p]) :: rest else e :: appendAt rest k p

/-- Embeds `FileRegistry._remove_from_map`: if the key has a non-empty bucket
containing the path, remove its first occurrence, and drop the key entirely
when the bucket becomes empty; in every other case the map is unchanged
(Python returns early on a missing key, an empty bucket or a `ValueError`). -/
def removeFromMap (m : List (String × List String)) (k p : String) :
    List (String × List String) :=
  match m with
  | [] => []
  | e :: rest =>
    if e.1 = k then
      if p ∈ e.2 then
        (if e.2.erase p = [] then rest else (e.1, e.2.erase p) :: rest)
      else e :: rest
    else e :: removeFromMap rest k p

/-- Embeds the `FileRegistry` of `4_Change_name.py`: two insertion-ordered
indices from lowercased full name and lowercased stem to the list of paths
registered under that key. -/
structure FileRegistry where
  by_name : List (String × List String)
  by_stem : List (String × List String)
deriving DecidableEq, Repr

/-- Key used by `_register`/`_unregister` in `by_name`: `path.name.lower()`. -/
def nameKey (p : String) : String :=
  pyLower (baseName p)

/-- Key used by `_register`/`_unregister` in `by_stem`: `path.stem.lower()`. -/
def stemKey (p : String) : String :=
  pyLower (stemOf (baseName p))

/-- Embeds `FileRegistry._register`. -/
def FileRegistry._register (r : FileRegistry) (p : String) : FileRegistry :=
  { by_name := appendAt r.by_name (nameKey p) p,
    by_stem := appendAt r.by_stem (stemKey p) p }

/-- Embeds `FileRegistry._unregister`. -/
def FileRegistry._unregister (r : FileRegistry) (p : String) : FileRegistry :=
  { by_name := removeFromMap r.by_name (nameKey p) p,
    by_stem := removeFromMap r.by_stem (stemKey p) p }

/-- Embeds `FileRegistry.add`. -/
def FileRegistry.add (r : FileRegistry) (p : String) : FileRegistry :=
  r._register p

/-- Embeds `FileRegistry.__init__`: registers, in discovery order, every file
of the pool found under the root. -/
def FileRegistry.ofPool (pool : List String) : FileRegistry :=
  pool.foldl FileRegistry._register ⟨[], []⟩

/-- Stable insertion of an element into a sorted list. -/
def insertLe {α : Type} (le : α → α → Bool) (x : α) : List α → List α
  | [] => [x]
  | y :: t => if le x y then x :: y :: t else y :: insertLe le x t

/-- Stable sort by insertion, modelling Python `sorted`/`list.sort`. -/
def sortLe {α : Type} (le : α → α → Bool) (l : List α) : List α :=
  l.foldr (insertLe le) []

/-- Python `sorted(bucket)[0]`: the least path of a non-empty bucket. -/
def bucketPick (l : List String) : String :=
  (sortLe sle l).headI

/-- Embeds `rapidfuzz.process.extractOne(query, choices, scorer)`: the first
choice attaining the maximal score, or `none` when there are no choices. The
scorer is kept abstract. -/
def extractOne (scorer : String → String → Nat) (query : String)
    (choices : List String) : Option (String × Nat) :=
  choices.foldl
    (fun best c =>
      match best with
      | none => some (c, scorer query c)
      | some (b, bs) =>
        if scorer query c > bs then some (c, scorer query c) else some (b, bs))
    none

/-- The name-tier decision of `_take_fuzzy`: `process.extractOne` over the
live name keys, accepted when the best score reaches `min_score` and the
matched bucket is non-empty. -/
def fuzzyNameHit (r : FileRegistry) (candidate : String) (min_score : Nat)
    (scorer : String → String → Nat) : Option String :=
  match extractOne scorer candidate (r.by_name.map (fun e => e.1)) with
  | some (k, s) =>
    if min_score ≤ s ∧ bucketOf r.by_name k ≠ [] then some k else none
  | none => none

/-- The stem-tier decision of `_take_fuzzy`: `process.extractOne` of the
candidate's stem over the live stem keys. -/
def fuzzyStemHit (r : FileRegistry) (candidate : String) (min_score : Nat)
    (scorer : String → String → Nat) : Option String :=
  match extractOne scorer (stemOf candidate) (r.by_stem.map (fun e => e.1)) with
  | some (k, s) =>
    if min_score ≤ s ∧ bucketOf r.by_stem k ≠ [] then some k else none
  | none => none

/-- Embeds `FileRegistry._take_fuzzy`: score the lowered candidate against the
live name keys, then its stem against the live stem keys; on a hit at or
above `min_score`, pop the least path of the matched bucket. -/
def FileRegistry._take_fuzzy (r : FileRegistry) (candidate : String)
    (min_score : Nat) (scorer : String → String → Nat) :
    Option String × FileRegistry :=
  if r.by_name = [] then (none, r)
  else
    match fuzzyNameHit r candidate min_score scorer with
    | some k =>
      let path := bucketPick (bucketOf r.by_name k)
      (some path, r._unregister path)
    | none =>
      match fuzzyStemHit r candidate min_score scorer with
      | some k =>
        let path := bucketPick (bucketOf r.by_stem k)
        (some path, r._unregister path)
      | none => (none, r)

/-- Embeds `FileRegistry.take`: strip the base name of the lookup value;
return `None` when it is blank; otherwise try the exact name key, then the
stem key, then the fuzzy tiers, unregistering whatever path is returned. -/
def FileRegistry.take (r : FileRegistry) (lookup_name : String)
    (min_score : Nat) (scorer : String → String → Nat) :
    Option String × FileRegistry :=
  let candidate := pyStrip (baseName lookup_name)
  if candidate = "" then (none, r)
  else
    let key := pyLower candidate
    if bucketOf r.by_name key ≠ [] then
      let path := bucketPick (bucketOf r.by_name key)
      (some path, r._unregister path)
    else
      let stem_key := pyLower (stemOf candidate)
      if bucketOf r.by_stem stem_key ≠ [] then
        let path := bucketPick (bucketOf r.by_stem stem_key)
        (some path, r._unregister path)
      else r._take_fuzzy (pyLower candidate) min_score scorer

/-- Number of occurrences of a path across all buckets of an index. -/
def countIn (m : List (String × List String)) (p : String) : Nat :=
  (m.map (fun e => e.2.count p)).sum

/-- Total number of path slots held by an index. -/
def sizeM (m : List (String × List String)) : Nat :=
  (m.map (fun e => e.2.length)).sum

/-- Well-formedness maintained by `FileRegistry`: buckets are non-empty and
keyed consistently, keys are unique (Python dict), and every path occurs in
`by_name` exactly as often as in `by_stem`. -/
structure RegWF (r : FileRegistry) : Prop where
  name_good : ∀ e ∈ r.by_name, e.2 ≠ [] ∧ ∀ p ∈ e.2, nameKey p = e.1
  stem_good : ∀ e ∈ r.by_stem, e.2 ≠ [] ∧ ∀ p ∈ e.2, stemKey p = e.1
  balanced : ∀ p, countIn r.by_name p = countIn r.by_stem p
  name_keys : (r.by_name.map (fun e => e.1)).Nodup
  stem_keys : (r.by_stem.map (fun e => e.1)).Nodup


theorem appendAt_cons_pos {e : String × List String} {rest : List (String × List String)}
    {k p : String} (h : e.1 = k) :
    appendAt (e :: rest) k p = (e.1, e.2 ++ [p]) :: rest := by
  simp only [appendAt, h, if_true]

theorem appendAt_cons_neg {e : String × List String} {rest : List (String × List String)}
    {k p : String} (h : ¬e.1 = k) :
    appendAt (e :: rest) k p = e :: appendAt rest k p := by
  simp only [appendAt, h, if_false]

theorem count_singleton_ite (p q : String) :
    List.count q [p] = if p = q then 1 else 0 := by
  by_cases h : p = q
  · subst h; simp
  · simp [List.count_singleton', h]

theorem countIn_appendAt (m : List (String × List String)) (k p q : String) :
    countIn (appendAt m k p) q = countIn m q + if p = q then 1 else 0 := by
  induction m with
  | nil =>
    show List.count q [p] + 0 = 0 + _
    rw [count_singleton_ite]
    omega
  | cons e rest ih =>
    by_cases h : e.1 = k
    · rw [appendAt_cons_pos h]
      show (e.2 ++ [p]).count q + countIn rest q = e.2.count q + countIn rest q + _
      rw [List.count_append, count_singleton_ite]
      omega
    · rw [appendAt_cons_neg h]
      show e.2.count q + countIn (appendAt rest k p) q = e.2.count q + countIn rest q + _
      rw [ih]
      omega

theorem sizeM_appendAt (m : List (String × List String)) (k p : String) :
    sizeM (appendAt m k p) = sizeM m + 1 := by
  induction m with
  | nil => simp [appendAt, sizeM]
  | cons e rest ih =>
    by_cases h : e.1 = k
    · rw [appendAt_cons_pos h]
      show (e.2 ++ [p]).length + sizeM rest = e.2.length + sizeM rest + 1
      rw [List.length_append]
      simp
      omega
    · rw [appendAt_cons_neg h]
      show e.2.length + sizeM (appendAt rest k p) = e.2.length + sizeM rest + 1
      rw [ih]
      omega

theorem keys_appendAt_subset (m : List (String × List String)) (k p k' : String)
    (h : k' ∈ (appendAt m k p).map (fun e => e.1)) :
    k' ∈ m.map (fun e => e.1) ∨ k' = k := by
  induction m with
  | nil =>
    right
    show k' = k
    simpa [appendAt] using h
  | cons e rest ih =>
    by_cases he : e.1 = k
    · rw [appendAt_cons_pos he, List.map_cons] at h
      rcases List.mem_cons.mp h with h | h
      · left
        rw [List.map_cons]
        exact List.mem_cons.mpr (Or.inl h)
      · left
        rw [List.map_cons]
        exact List.mem_cons.mpr (Or.inr h)
    · rw [appendAt_cons_neg he, List.map_cons] at h
      rcases List.mem_cons.mp h with h | h
      · left
        rw [List.map_cons]
        exact List.mem_cons.mpr (Or.inl h)
      · rcases ih h with h2 | h2
        · left
          rw [List.map_cons]
          exact List.mem_cons.mpr (Or.inr h2)
        · right
          exact h2

theorem keys_appendAt_nodup (m : List (String × List String)) (k p : String)
    (h : (m.map (fun e => e.1)).Nodup) :
    ((appendAt m k p).map (fun e => e.1)).Nodup := by
  induction m with
  | nil => simp [appendAt]
  | cons e rest ih =>
    rw [List.map_cons, List.nodup_cons] at h
    by_cases he : e.1 = k
    · rw [appendAt_cons_pos he, List.map_cons, List.nodup_cons]
      exact h
    · rw [appendAt_cons_neg he, List.map_cons, List.nodup_cons]
      refine ⟨?_, ih h.2⟩
      intro hc
      rcases keys_appendAt_subset rest k p e.1 hc with h2 | h2
      · exact h.1 h2
      · exact he h2

theorem good_appendAt (m : List (String × List String)) (k p : String)
    (keyfn : String → String) (hk : keyfn p = k)
    (h : ∀ e ∈ m, e.2 ≠ [] ∧ ∀ q ∈ e.2, keyfn q = e.1) :
    ∀ e ∈ appendAt m k p, e.2 ≠ [] ∧ ∀ q ∈ e.2, keyfn q = e.1 := by
  induction m with
  | nil =>
    intro e he
    simp only [appendAt, List.mem_singleton] at he
    subst he
    refine ⟨by simp, ?_⟩
    intro q hq
    simp only [List.mem_singleton] at hq
    subst hq
    exact hk
  | cons e0 rest ih =>
    intro e he
    by_cases he0 : e0.1 = k
    · rw [appendAt_cons_pos he0] at he
      rcases List.mem_cons.mp he with he | he
      · subst he
        obtain ⟨-, h2⟩ := h e0 (List.mem_cons_self _ _)
        refine ⟨by simp, ?_⟩
        intro q hq
        rcases List.mem_append.mp hq with hq | hq
        · exact h2 q hq
        · simp only [List.mem_singleton] at hq
          subst hq
          rw [hk, he0]
      · exact h e (List.mem_cons_of_mem _ he)
    · rw [appendAt_cons_neg he0] at he
      rcases List.mem_cons.mp he with he | he
      · subst he
        exact h e (List.mem_cons_self _ _)
      · exact ih (fun e' he' => h e' (List.mem_cons_of_mem _ he')) e he

theorem bucketOf_cons (e : String × List String) (rest : List (String × List String))
    (k : String) :
    bucketOf (e :: rest) k = if e.1 = k then e.2 else bucketOf rest k := by
  by_cases h : e.1 = k <;> simp [bucketOf, lookupM, List.find?_cons, h]

theorem removeFromMap_cons_pos_mem {e : String × List String}
    {rest : List (String × List String)} {k p : String}
    (he : e.1 = k) (hp : p ∈ e.2) :
    removeFromMap (e :: rest) k p =
      if e.2.erase p = [] then rest else (e.1, e.2.erase p) :: rest := by
  simp only [removeFromMap, he, if_true, hp]

theorem removeFromMap_cons_pos_notmem {e : String × List String}
    {rest : List (String × List String)} {k p : String}
    (he : e.1 = k) (hp : p ∉ e.2) :
    removeFromMap (e :: rest) k p = e :: rest := by
  simp only [removeFromMap, he, if_true, hp, if_false]

theorem removeFromMap_cons_neg {e : String × List String}
    {rest : List (String × List String)} {k p : String} (he : ¬e.1 = k) :
    removeFromMap (e :: rest) k p = e :: removeFromMap rest k p := by
  simp only [removeFromMap, he, if_false]

theorem erase_nil_of_mem {l : List String} {p : String}
    (hp : p ∈ l) (h : l.erase p = []) : l = [p] := by
  have hlen : (l.erase p).length = l.length - 1 := List.length_erase_of_mem hp
  rw [h] at hlen
  simp only [List.length_nil] at hlen
  cases l with
  | nil => cases hp
  | cons a t =>
    cases t with
    | nil =>
      simp only [List.mem_singleton] at hp
      rw [hp]
    | cons b t2 => simp at hlen

theorem sizeM_removeFromMap (m : List (String × List String)) (k p : String)
    (hp : p ∈ bucketOf m k) :
    sizeM (removeFromMap m k p) + 1 = sizeM m := by
  induction m with
  | nil => simp [bucketOf, lookupM] at hp
  | cons e rest ih =>
    rw [bucketOf_cons] at hp
    by_cases he : e.1 = k
    · rw [if_pos he] at hp
      rw [removeFromMap_cons_pos_mem he hp]
      by_cases hz : e.2.erase p = []
      · rw [if_pos hz]
        have := erase_nil_of_mem hp hz
        show sizeM rest + 1 = e.2.length + sizeM rest
        rw [this]
        simp
        omega
      · rw [if_neg hz]
        show (e.2.erase p).length + sizeM rest + 1 = e.2.length + sizeM rest
        have := List.length_erase_of_mem hp
        have hpos : 0 < e.2.length := List.length_pos.mpr (List.ne_nil_of_mem hp)
        omega
    · rw [if_neg he] at hp
      rw [removeFromMap_cons_neg he]
      show e.2.length + sizeM (removeFromMap rest k p) + 1 = e.2.length + sizeM rest
      have := ih hp
      omega

theorem count_erase_self_of_mem {l : List String} {p : String} (hp : p ∈ l) :
    (l.erase p).count p + 1 = l.count p := by
  have h1 : (l.erase p).count p = l.count p - 1 := List.count_erase_self p l
  have h2 : 0 < l.count p := List.count_pos_iff.mpr hp
  omega

theorem countIn_removeFromMap_self (m : List (String × List String)) (k p : String)
    (hp : p ∈ bucketOf m k) :
    countIn (removeFromMap m k p) p + 1 = countIn m p := by
  induction m with
  | nil => simp [bucketOf, lookupM] at hp
  | cons e rest ih =>
    rw [bucketOf_cons] at hp
    by_cases he : e.1 = k
    · rw [if_pos he] at hp
      rw [removeFromMap_cons_pos_mem he hp]
      by_cases hz : e.2.erase p = []
      · rw [if_pos hz]
        have hep : e.2 = [p] := erase_nil_of_mem hp hz
        show countIn rest p + 1 = e.2.count p + countIn rest p
        rw [hep, count_singleton_ite, if_pos rfl]
        omega
      · rw [if_neg hz]
        show (e.2.erase p).count p + countIn rest p + 1 = e.2.count p + countIn rest p
        have := count_erase_self_of_mem hp
        omega
    · rw [if_neg he] at hp
      rw [removeFromMap_cons_neg he]
      show e.2.count p + countIn (removeFromMap rest k p) p + 1
        = e.2.count p + countIn rest p
      have := ih hp
      omega

theorem countIn_removeFromMap_other (m : List (String × List String)) (k p q : String)
    (hq : q ≠ p) :
    countIn (removeFromMap m k p) q = countIn m q := by
  induction m with
  | nil => rfl
  | cons e rest ih =>
    by_cases he : e.1 = k
    · by_cases hp : p ∈ e.2
      · rw [removeFromMap_cons_pos_mem he hp]
        by_cases hz : e.2.erase p = []
        · rw [if_pos hz]
          have hep : e.2 = [p] := erase_nil_of_mem hp hz
          show countIn rest q = e.2.count q + countIn rest q
          rw [hep, count_singleton_ite, if_neg (fun h => hq h.symm)]
          omega
        · rw [if_neg hz]
          show (e.2.erase p).count q + countIn rest q = e.2.count q + countIn rest q
          rw [List.count_erase_of_ne hq]
      · rw [removeFromMap_cons_pos_notmem he hp]
    · rw [removeFromMap_cons_neg he]
      show e.2.count q + countIn (removeFromMap rest k p) q = e.2.count q + countIn rest q
      rw [ih]

theorem good_removeFromMap (m : List (String × List String)) (k p : String)
    (keyfn : String → String)
    (h : ∀ e ∈ m, e.2 ≠ [] ∧ ∀ q ∈ e.2, keyfn q = e.1) :
    ∀ e ∈ removeFromMap m k p, e.2 ≠ [] ∧ ∀ q ∈ e.2, keyfn q = e.1 := by
  induction m with
  | nil => intro e he; cases he
  | cons e0 rest ih =>
    intro e he
    by_cases he0 : e0.1 = k
    · by_cases hp : p ∈ e0.2
      · rw [removeFromMap_cons_pos_mem he0 hp] at he
        by_cases hz : e0.2.erase p = []
        · rw [if_pos hz] at he
          exact h e (List.mem_cons_of_mem _ he)
        · rw [if_neg hz] at he
          rcases List.mem_cons.mp he with he | he
          · subst he
            obtain ⟨-, h2⟩ := h e0 (List.mem_cons_self _ _)
            exact ⟨hz, fun q hq => h2 q (List.mem_of_mem_erase hq)⟩
          · exact h e (List.mem_cons_of_mem _ he)
      · rw [removeFromMap_cons_pos_notmem he0 hp] at he
        exact h e he
    · rw [removeFromMap_cons_neg he0] at he
      rcases List.mem_cons.mp he with he | he
      · subst he
        exact h e (List.mem_cons_self _ _)
      · exact ih (fun e' he' => h e' (List.mem_cons_of_mem _ he')) e he

theorem keys_removeFromMap_subset (m : List (String × List String)) (k p k' : String)
    (h : k' ∈ (removeFromMap m k p).map (fun e => e.1)) :
    k' ∈ m.map (fun e => e.1) := by
  induction m with
  | nil => cases h
  | cons e rest ih =>
    rw [List.map_cons]
    by_cases he : e.1 = k
    · by_cases hp : p ∈ e.2
      · rw [removeFromMap_cons_pos_mem he hp] at h
        by_cases hz : e.2.erase p = []
        · rw [if_pos hz] at h
          exact List.mem_cons_of_mem _ h
        · rw [if_neg hz, List.map_cons] at h
          rcases List.mem_cons.mp h with h | h
          · exact List.mem_cons.mpr (Or.inl h)
          · exact List.mem_cons_of_mem _ h
      · rw [removeFromMap_cons_pos_notmem he hp] at h
        rw [List.map_cons] at h
        exact h
    · rw [removeFromMap_cons_neg he, List.map_cons] at h
      rcases List.mem_cons.mp h with h | h
      · exact List.mem_cons.mpr (Or.inl h)
      · exact List.mem_cons_of_mem _ (ih h)

theorem keys_removeFromMap_nodup (m : List (String × List String)) (k p : String)
    (h : (m.map (fun e => e.1)).Nodup) :
    ((removeFromMap m k p).map (fun e => e.1)).Nodup := by
  induction m with
  | nil => exact h
  | cons e rest ih =>
    rw [List.map_cons, List.nodup_cons] at h
    by_cases he : e.1 = k
    · by_cases hp : p ∈ e.2
      · rw [removeFromMap_cons_pos_mem he hp]
        by_cases hz : e.2.erase p = []
        · rw [if_pos hz]
          exact h.2
        · rw [if_neg hz, List.map_cons, List.nodup_cons]
          exact h
      · rw [removeFromMap_cons_pos_notmem he hp, List.map_cons, List.nodup_cons]
        exact h
    · rw [removeFromMap_cons_neg he, List.map_cons, List.nodup_cons]
      exact ⟨fun hc => h.1 (keys_removeFromMap_subset rest k p e.1 hc), ih h.2⟩

theorem countIn_zero_of_no_key (m : List (String × List String)) (p : String)
    (keyfn : String → String)
    (hcoh : ∀ e ∈ m, ∀ q ∈ e.2, keyfn q = e.1)
    (hno : ∀ e ∈ m, e.1 ≠ keyfn p) :
    countIn m p = 0 := by
  induction m with
  | nil => rfl
  | cons e rest ih =>
    show e.2.count p + countIn rest p = 0
    have h1 : e.2.count p = 0 := by
      rw [List.count_eq_zero]
      intro hp
      exact hno e (List.mem_cons_self _ _) (hcoh e (List.mem_cons_self _ _) p hp).symm
    have h2 : countIn rest p = 0 :=
      ih (fun e' he' => hcoh e' (List.mem_cons_of_mem _ he'))
        (fun e' he' => hno e' (List.mem_cons_of_mem _ he'))
    omega

theorem mem_bucket_of_countIn_pos (m : List (String × List String)) (p : String)
    (keyfn : String → String)
    (hcoh : ∀ e ∈ m, ∀ q ∈ e.2, keyfn q = e.1)
    (hnd : (m.map (fun e => e.1)).Nodup)
    (hcnt : 1 ≤ countIn m p) :
    p ∈ bucketOf m (keyfn p) := by
  induction m with
  | nil => simp [countIn] at hcnt
  | cons e rest ih =>
    rw [List.map_cons, List.nodup_cons] at hnd
    rw [bucketOf_cons]
    by_cases he : e.1 = keyfn p
    · rw [if_pos he]
      by_cases hp : p ∈ e.2
      · exact hp
      · exfalso
        have h1 : e.2.count p = 0 := List.count_eq_zero.mpr hp
        have h2 : countIn rest p = 0 := by
          apply countIn_zero_of_no_key rest p keyfn
            (fun e' he' => hcoh e' (List.mem_cons_of_mem _ he'))
          intro e' he' hk
          apply hnd.1
          rw [he, ← hk]
          exact List.mem_map.mpr ⟨e', he', rfl⟩
        have : countIn (e :: rest) p = e.2.count p + countIn rest p := rfl
        omega
    · rw [if_neg he]
      have h1 : e.2.count p = 0 := by
        rw [List.count_eq_zero]
        intro hp
        exact he (hcoh e (List.mem_cons_self _ _) p hp).symm
      have : countIn (e :: rest) p = e.2.count p + countIn rest p := rfl
      exact ih (fun e' he' => hcoh e' (List.mem_cons_of_mem _ he')) hnd.2 (by omega)

theorem countIn_pos_of_mem_bucket (m : List (String × List String)) (k p : String)
    (hp : p ∈ bucketOf m k) : 1 ≤ countIn m p := by
  induction m with
  | nil => simp [bucketOf, lookupM] at hp
  | cons e rest ih =>
    rw [bucketOf_cons] at hp
    have hc : countIn (e :: rest) p = e.2.count p + countIn rest p := rfl
    by_cases he : e.1 = k
    · rw [if_pos he] at hp
      have := List.count_pos_iff.mpr hp
      omega
    · rw [if_neg he] at hp
      have := ih hp
      omega

theorem removeFromMap_eq_of_count_zero (m : List (String × List String)) (p : String)
    (keyfn : String → String)
    (hcoh : ∀ e ∈ m, ∀ q ∈ e.2, keyfn q = e.1)
    (hz : countIn m p = 0) :
    removeFromMap m (keyfn p) p = m := by
  induction m with
  | nil => rfl
  | cons e rest ih =>
    have hc : countIn (e :: rest) p = e.2.count p + countIn rest p := rfl
    by_cases he : e.1 = keyfn p
    · have hp : p ∉ e.2 := by
        rw [← List.count_eq_zero (l := e.2)]
        omega
      exact removeFromMap_cons_pos_notmem he hp
    · rw [removeFromMap_cons_neg he]
      rw [ih (fun e' he' => hcoh e' (List.mem_cons_of_mem _ he')) (by omega)]

theorem removeFromMap_eq_of_not_mem_bucket (m : List (String × List String))
    (k p : String) (hp : p ∉ bucketOf m k) :
    removeFromMap m k p = m := by
  induction m with
  | nil => rfl
  | cons e rest ih =>
    rw [bucketOf_cons] at hp
    by_cases he : e.1 = k
    · rw [if_pos he] at hp
      exact removeFromMap_cons_pos_notmem he hp
    · rw [if_neg he] at hp
      rw [removeFromMap_cons_neg he, ih hp]

theorem countIn_removeFromMap_le (m : List (String × List String)) (k p q : String) :
    countIn (removeFromMap m k p) q ≤ countIn m q := by
  by_cases hq : q = p
  · subst hq
    by_cases hp : q ∈ bucketOf m k
    · have := countIn_removeFromMap_self m k q hp
      omega
    · rw [removeFromMap_eq_of_not_mem_bucket m k q hp]
  · rw [countIn_removeFromMap_other m k p q hq]

theorem regWF_register (r : FileRegistry) (p : String) (h : RegWF r) :
    RegWF (r._register p) where
  name_good := good_appendAt r.by_name (nameKey p) p nameKey rfl h.name_good
  stem_good := good_appendAt r.by_stem (stemKey p) p stemKey rfl h.stem_good
  balanced := by
    intro q
    show countIn (appendAt r.by_name (nameKey p) p) q
      = countIn (appendAt r.by_stem (stemKey p) p) q
    rw [countIn_appendAt, countIn_appendAt, h.balanced]
  name_keys := keys_appendAt_nodup r.by_name (nameKey p) p h.name_keys
  stem_keys := keys_appendAt_nodup r.by_stem (stemKey p) p h.stem_keys

theorem mem_name_bucket_of_pos (r : FileRegistry) (p : String) (h : RegWF r)
    (hcnt : 1 ≤ countIn r.by_name p) :
    p ∈ bucketOf r.by_name (nameKey p) :=
  mem_bucket_of_countIn_pos r.by_name p nameKey
    (fun e he => (h.name_good e he).2) h.name_keys hcnt

theorem mem_stem_bucket_of_pos (r : FileRegistry) (p : String) (h : RegWF r)
    (hcnt : 1 ≤ countIn r.by_name p) :
    p ∈ bucketOf r.by_stem (stemKey p) :=
  mem_bucket_of_countIn_pos r.by_stem p stemKey
    (fun e he => (h.stem_good e he).2) h.stem_keys (by rw [← h.balanced]; exact hcnt)

theorem regWF_unregister (r : FileRegistry) (p : String) (h : RegWF r)
    (hcnt : 1 ≤ countIn r.by_name p) :
    RegWF (r._unregister p) where
  name_good := good_removeFromMap r.by_name (nameKey p) p nameKey
    (fun e he => ⟨(h.name_good e he).1, (h.name_good e he).2⟩)
  stem_good := good_removeFromMap r.by_stem (stemKey p) p stemKey
    (fun e he => ⟨(h.stem_good e he).1, (h.stem_good e he).2⟩)
  balanced := by
    intro q
    show countIn (removeFromMap r.by_name (nameKey p) p) q
      = countIn (removeFromMap r.by_stem (stemKey p) p) q
    by_cases hq : q = p
    · rw [hq]
      have h1 := countIn_removeFromMap_self r.by_name (nameKey p) p
        (mem_name_bucket_of_pos r p h hcnt)
      have h2 := countIn_removeFromMap_self r.by_stem (stemKey p) p
        (mem_stem_bucket_of_pos r p h hcnt)
      have h3 := h.balanced p
      omega
    · rw [countIn_removeFromMap_other _ _ _ _ hq,
        countIn_removeFromMap_other _ _ _ _ hq, h.balanced]
  name_keys := keys_removeFromMap_nodup r.by_name (nameKey p) p h.name_keys
  stem_keys := keys_removeFromMap_nodup r.by_stem (stemKey p) p h.stem_keys

theorem sizeM_unregister (r : FileRegistry) (p : String) (h : RegWF r)
    (hcnt : 1 ≤ countIn r.by_name p) :
    sizeM (r._unregister p).by_name + 1 = sizeM r.by_name :=
  sizeM_removeFromMap r.by_name (nameKey p) p (mem_name_bucket_of_pos r p h hcnt)

theorem countIn_unregister_self (r : FileRegistry) (p : String) (h : RegWF r)
    (hcnt : 1 ≤ countIn r.by_name p) :
    countIn (r._unregister p).by_name p + 1 = countIn r.by_name p :=
  countIn_removeFromMap_self r.by_name (nameKey p) p
    (mem_name_bucket_of_pos r p h hcnt)

theorem countIn_unregister_le (r : FileRegistry) (p q : String) :
    countIn (r._unregister p).by_name q ≤ countIn r.by_name q :=
  countIn_removeFromMap_le r.by_name (nameKey p) p q

/-- The empty registry is well-formed. -/
theorem regWF_empty : RegWF ⟨[], []⟩ where
  name_good := by intro e he; cases he
  stem_good := by intro e he; cases he
  balanced := by intro p; rfl
  name_keys := List.nodup_nil
  stem_keys := List.nodup_nil

theorem regWF_ofPool (pool : List String) : RegWF (FileRegistry.ofPool pool) := by
  have h : ∀ (r : FileRegistry), RegWF r → RegWF (pool.foldl FileRegistry._register r) := by
    induction pool with
    | nil => intro r hr; exact hr
    | cons p rest ih =>
      intro r hr
      exact ih (r._register p) (regWF_register r p hr)
  exact h ⟨[], []⟩ regWF_empty

theorem sizeM_ofPool (pool : List String) :
    sizeM (FileRegistry.ofPool pool).by_name = pool.length := by
  have h : ∀ (r : FileRegistry),
      sizeM (pool.foldl FileRegistry._register r).by_name
        = sizeM r.by_name + pool.length := by
    induction pool with
    | nil => intro r; simp
    | cons p rest ih =>
      intro r
      rw [List.foldl_cons, ih]
      show sizeM (appendAt r.by_name (nameKey p) p) + rest.length = _
      rw [sizeM_appendAt]
      simp only [List.length_cons]
      omega
  rw [show FileRegistry.ofPool pool = pool.foldl FileRegistry._register ⟨[], []⟩ from rfl,
    h ⟨[], []⟩]
  simp [sizeM]

theorem countIn_ofPool (pool : List String) (q : String) :
    countIn (FileRegistry.ofPool pool).by_name q = pool.count q := by
  have h : ∀ (r : FileRegistry),
      countIn (pool.foldl FileRegistry._register r).by_name q
        = countIn r.by_name q + pool.count q := by
    induction pool with
    | nil => intro r; simp
    | cons p rest ih =>
      intro r
      rw [List.foldl_cons, ih]
      show countIn (appendAt r.by_name (nameKey p) p) q + rest.count q
        = countIn r.by_name q + (p :: rest).count q
      rw [countIn_appendAt]
      have hc : (p :: rest).count q = rest.count q + if p = q then 1 else 0 := by
        by_cases hpq : p = q
        · simp [List.count_cons, hpq]
        · have hqp : ¬q = p := fun hx => hpq hx.symm
          simp [List.count_cons, hpq, hqp]
      rw [hc]
      omega
  rw [show FileRegistry.ofPool pool = pool.foldl FileRegistry._register ⟨[], []⟩ from rfl,
    h ⟨[], []⟩]
  simp [countIn]

theorem sle_trans : ∀ a b c : String, sle a b = true → sle b c = true → sle a c = true := by
  intro a b c hab hbc
  simp only [sle, decide_eq_true_eq] at *
  exact le_trans hab hbc

theorem sle_total : ∀ a b : String, (sle a b || sle b a) = true := by
  intro a b
  simp only [sle, Bool.or_eq_true, decide_eq_true_eq]
  exact le_total a b

theorem headI_mem_of_ne_nil {l : List String} (h : l ≠ []) : l.headI ∈ l := by
  cases l with
  | nil => exact absurd rfl h
  | cons a t => exact List.mem_cons_self _ _

theorem insertLe_perm {α : Type} (le : α → α → Bool) (x : α) :
    ∀ l : List α, (insertLe le x l).Perm (x :: l)
  | [] => List.Perm.refl _
  | y :: t => by
    by_cases h : le x y
    · rw [show insertLe le x (y :: t) = x :: y :: t by simp [insertLe, h]]
    · rw [show insertLe le x (y :: t) = y :: insertLe le x t by simp [insertLe, h]]
      exact ((insertLe_perm le x t).cons y).trans (List.Perm.swap x y t)

theorem sortLe_perm {α : Type} (le : α → α → Bool) :
    ∀ l : List α, (sortLe le l).Perm l
  | [] => List.Perm.refl _
  | a :: t => by
    show (insertLe le a (sortLe le t)).Perm (a :: t)
    exact (insertLe_perm le a (sortLe le t)).trans ((sortLe_perm le t).cons a)

theorem insertLe_pairwise {α : Type} (le : α → α → Bool)
    (htrans : ∀ a b c, le a b = true → le b c = true → le a c = true)
    (htotal : ∀ a b, (le a b || le b a) = true) (x : α) :
    ∀ l : List α, List.Pairwise (fun a b => le a b = true) l →
    List.Pairwise (fun a b => le a b = true) (insertLe le x l)
  | [], _ => List.pairwise_singleton _ _
  | y :: t, hp => by
    obtain ⟨hy, ht⟩ := List.pairwise_cons.mp hp
    by_cases h : le x y
    · rw [show insertLe le x (y :: t) = x :: y :: t by simp [insertLe, h]]
      refine List.pairwise_cons.mpr ⟨?_, hp⟩
      intro b hb
      rcases List.mem_cons.mp hb with hb | hb
      · rw [hb]
        exact h
      · exact htrans x y b h (hy b hb)
    · rw [show insertLe le x (y :: t) = y :: insertLe le x t by simp [insertLe, h]]
      refine List.pairwise_cons.mpr ⟨?_, insertLe_pairwise le htrans htotal x t ht⟩
      intro b hb
      have hb' : b ∈ x :: t := (insertLe_perm le x t).mem_iff.mp hb
      rcases List.mem_cons.mp hb' with hb' | hb'
      · rw [hb']
        have := htotal x y
        rw [Bool.or_eq_true] at this
        rcases this with hxy | hyx
        · exact absurd hxy h
        · exact hyx
      · exact hy b hb'

theorem sortLe_pairwise {α : Type} (le : α → α → Bool)
    (htrans : ∀ a b c, le a b = true → le b c = true → le a c = true)
    (htotal : ∀ a b, (le a b || le b a) = true) :
    ∀ l : List α, List.Pairwise (fun a b => le a b = true) (sortLe le l)
  | [] => List.Pairwise.nil
  | a :: t => insertLe_pairwise le htrans htotal a (sortLe le t)
      (sortLe_pairwise le htrans htotal t)

theorem bucketPick_mem {l : List String} (h : l ≠ []) : bucketPick l ∈ l := by
  have hperm := sortLe_perm sle l
  have hne : sortLe sle l ≠ [] := by
    intro hx
    rw [hx] at hperm
    exact h hperm.nil_eq.symm
  exact hperm.mem_iff.mp (headI_mem_of_ne_nil hne)

theorem bucketPick_min {l : List String} (h : l ≠ []) :
    ∀ q ∈ l, bucketPick l ≤ q := by
  intro q hq
  have hperm := sortLe_perm sle l
  have hsorted := sortLe_pairwise sle sle_trans sle_total l
  have hne : sortLe sle l ≠ [] := by
    intro hx
    rw [hx] at hperm
    exact h hperm.nil_eq.symm
  have hq' : q ∈ sortLe sle l := hperm.mem_iff.mpr hq
  cases hms : sortLe sle l with
  | nil => exact absurd hms hne
  | cons x t =>
    rw [hms] at hq' hsorted
    rw [show bucketPick l = (sortLe sle l).headI from rfl, hms]
    show x ≤ q
    rcases List.mem_cons.mp hq' with hqx | hqt
    · rw [hqx]
    · have := (List.pairwise_cons.mp hsorted).1 q hqt
      simpa [sle] using this

theorem fuzzyNameHit_nonempty {r : FileRegistry} {c : String} {ms : Nat}
    {sc : String → String → Nat} {k : String}
    (h : fuzzyNameHit r c ms sc = some k) : bucketOf r.by_name k ≠ [] := by
  unfold fuzzyNameHit at h
  cases hx : extractOne sc c (r.by_name.map (fun e => e.1)) with
  | none => rw [hx] at h; cases h
  | some ks =>
    obtain ⟨k', s⟩ := ks
    rw [hx] at h
    replace h : (if ms ≤ s ∧ bucketOf r.by_name k' ≠ [] then some k' else none)
      = some k := h
    by_cases hc : ms ≤ s ∧ bucketOf r.by_name k' ≠ []
    · rw [if_pos hc] at h
      injection h with h1
      rw [← h1]
      exact hc.2
    · rw [if_neg hc] at h
      cases h

theorem fuzzyStemHit_nonempty {r : FileRegistry} {c : String} {ms : Nat}
    {sc : String → String → Nat} {k : String}
    (h : fuzzyStemHit r c ms sc = some k) : bucketOf r.by_stem k ≠ [] := by
  unfold fuzzyStemHit at h
  cases hx : extractOne sc (stemOf c) (r.by_stem.map (fun e => e.1)) with
  | none => rw [hx] at h; cases h
  | some ks =>
    obtain ⟨k', s⟩ := ks
    rw [hx] at h
    replace h : (if ms ≤ s ∧ bucketOf r.by_stem k' ≠ [] then some k' else none)
      = some k := h
    by_cases hc : ms ≤ s ∧ bucketOf r.by_stem k' ≠ []
    · rw [if_pos hc] at h
      injection h with h1
      rw [← h1]
      exact hc.2
    · rw [if_neg hc] at h
      cases h

theorem take_fuzzy_frame {r : FileRegistry} {c : String} {ms : Nat}
    {sc : String → String → Nat} {r' : FileRegistry}
    (heq : r._take_fuzzy c ms sc = (none, r')) : r' = r := by
  unfold FileRegistry._take_fuzzy at heq
  by_cases hemp : r.by_name = []
  · rw [if_pos hemp] at heq
    injection heq with h1 h2
    exact h2.symm
  · rw [if_neg hemp] at heq
    cases hnh : fuzzyNameHit r c ms sc with
    | some k =>
      rw [hnh] at heq
      injection heq with h1 h2
      cases h1
    | none =>
      rw [hnh] at heq
      cases hsh : fuzzyStemHit r c ms sc with
      | some k =>
        rw [hsh] at heq
        injection heq with h1 h2
        cases h1
      | none =>
        rw [hsh] at heq
        injection heq with h1 h2
        exact h2.symm

theorem take_fuzzy_some {r : FileRegistry} {c : String} {ms : Nat}
    {sc : String → String → Nat} {p : String} {r' : FileRegistry}
    (hwf : RegWF r)
    (heq : r._take_fuzzy c ms sc = (some p, r')) :
    1 ≤ countIn r.by_name p ∧ r' = r._unregister p := by
  unfold FileRegistry._take_fuzzy at heq
  by_cases hemp : r.by_name = []
  · rw [if_pos hemp] at heq
    cases heq
  · rw [if_neg hemp] at heq
    cases hnh : fuzzyNameHit r c ms sc with
    | some k =>
      rw [hnh] at heq
      injection heq with h1 h2
      injection h1 with h1
      have hb := fuzzyNameHit_nonempty hnh
      have hmem : p ∈ bucketOf r.by_name k := by
        rw [← h1]
        exact bucketPick_mem hb
      exact ⟨countIn_pos_of_mem_bucket _ _ _ hmem, by rw [← h2, h1]⟩
    | none =>
      rw [hnh] at heq
      cases hsh : fuzzyStemHit r c ms sc with
      | some k =>
        rw [hsh] at heq
        injection heq with h1 h2
        injection h1 with h1
        have hb := fuzzyStemHit_nonempty hsh
        have hmem : p ∈ bucketOf r.by_stem k := by
          rw [← h1]
          exact bucketPick_mem hb
        have hcnt : 1 ≤ countIn r.by_stem p := countIn_pos_of_mem_bucket _ _ _ hmem
        rw [← hwf.balanced] at hcnt
        exact ⟨hcnt, by rw [← h2, h1]⟩
      | none =>
        rw [hsh] at heq
        cases heq

theorem take_frame {r : FileRegistry} {l : String} {ms : Nat}
    {sc : String → String → Nat} {r' : FileRegistry}
    (heq : r.take l ms sc = (none, r')) : r' = r := by
  simp only [FileRegistry.take] at heq
  split_ifs at heq with h1 h2 h3
  · injection heq with ha hb
    exact hb.symm
  · injection heq with ha hb
    cases ha
  · injection heq with ha hb
    cases ha
  · exact take_fuzzy_frame heq

theorem take_some {r : FileRegistry} {l : String} {ms : Nat}
    {sc : String → String → Nat} {p : String} {r' : FileRegistry}
    (hwf : RegWF r)
    (heq : r.take l ms sc = (some p, r')) :
    1 ≤ countIn r.by_name p ∧ r' = r._unregister p := by
  simp only [FileRegistry.take] at heq
  split_ifs at heq with h1 h2 h3
  · cases heq
  · injection heq with ha hb
    injection ha with ha
    have hmem : p ∈ bucketOf r.by_name (pyLower (pyStrip (baseName l))) := by
      rw [← ha]
      exact bucketPick_mem h2
    exact ⟨countIn_pos_of_mem_bucket _ _ _ hmem, by rw [← hb, ha]⟩
  · injection heq with ha hb
    injection ha with ha
    have hmem : p ∈ bucketOf r.by_stem (pyLower (stemOf (pyStrip (baseName l)))) := by
      rw [← ha]
      exact bucketPick_mem h3
    have hcnt : 1 ≤ countIn r.by_stem p := countIn_pos_of_mem_bucket _ _ _ hmem
    rw [← hwf.balanced] at hcnt
    exact ⟨hcnt, by rw [← hb, ha]⟩
  · exact take_fuzzy_some hwf heq

/-- One registry operation of a rename pass: a `take` with a lookup string, or
an `add` returning or recording a path. -/
inductive RegOp where
  | takeOp (lookup : String) : RegOp
  | addOp (path : String) : RegOp
deriving DecidableEq, Repr

/-- Runs a sequence of registry operations with a fixed threshold and scorer,
collecting the paths returned by successful takes, in order. -/
def runOps (scorer : String → String → Nat) (min_score : Nat) :
    FileRegistry → List RegOp → FileRegistry × List String
  | r, [] => (r, [])
  | r, RegOp.takeOp l :: rest =>
    match r.take l min_score scorer with
    | (some p, r') =>
      let (rf, ps) := runOps scorer min_score r' rest
      (rf, p :: ps)
    | (none, r') => runOps scorer min_score r' rest
  | r, RegOp.addOp p :: rest => runOps scorer min_score (r.add p) rest

/-- Number of `add` operations in a sequence. -/
def numAdds : List RegOp → Nat
  | [] => 0
  | RegOp.takeOp _ :: rest => numAdds rest
  | RegOp.addOp _ :: rest => numAdds rest + 1

/-- A sequence free of `add` operations. -/
def takesOnly : List RegOp → Prop
  | [] => True
  | RegOp.takeOp _ :: rest => takesOnly rest
  | RegOp.addOp _ :: _ => False

theorem runOps_size (scorer : String → String → Nat) (min_score : Nat) :
    ∀ (ops : List RegOp) (r : FileRegistry), RegWF r →
    sizeM (runOps scorer min_score r ops).1.by_name
        + (runOps scorer min_score r ops).2.length
      = sizeM r.by_name + numAdds ops
  | [], r, _ => rfl
  | RegOp.takeOp l :: rest, r, hwf => by
    cases ht : r.take l min_score scorer with
    | mk po r' =>
      cases po with
      | some p =>
        obtain ⟨hcnt, hr'⟩ := take_some hwf ht
        have hwf' : RegWF r' := by
          rw [hr']
          exact regWF_unregister r p hwf hcnt
        have hsz : sizeM r'.by_name + 1 = sizeM r.by_name := by
          rw [hr']
          exact sizeM_unregister r p hwf hcnt
        have ih := runOps_size scorer min_score rest r' hwf'
        show sizeM (runOps scorer min_score r (RegOp.takeOp l :: rest)).1.by_name
            + (runOps scorer min_score r (RegOp.takeOp l :: rest)).2.length
          = sizeM r.by_name + numAdds rest
        have hrun : runOps scorer min_score r (RegOp.takeOp l :: rest)
            = ((runOps scorer min_score r' rest).1,
               p :: (runOps scorer min_score r' rest).2) := by
          show (match r.take l min_score scorer with
            | (some p, r') =>
              ((runOps scorer min_score r' rest).1,
               p :: (runOps scorer min_score r' rest).2)
            | (none, r') => runOps scorer min_score r' rest) = _
          rw [ht]
        rw [hrun]
        simp only [List.length_cons]
        omega
      | none =>
        have hr' : r' = r := take_frame ht
        have ih := runOps_size scorer min_score rest r hwf
        have hrun : runOps scorer min_score r (RegOp.takeOp l :: rest)
            = runOps scorer min_score r rest := by
          show (match r.take l min_score scorer with
            | (some p, r') =>
              ((runOps scorer min_score r' rest).1,
               p :: (runOps scorer min_score r' rest).2)
            | (none, r') => runOps scorer min_score r' rest) = _
          rw [ht, hr']
        rw [hrun]
        exact ih
  | RegOp.addOp p :: rest, r, hwf => by
    have hwf' : RegWF (r.add p) := regWF_register r p hwf
    have ih := runOps_size scorer min_score rest (r.add p) hwf'
    have hsz : sizeM (r.add p).by_name = sizeM r.by_name + 1 :=
      sizeM_appendAt r.by_name (nameKey p) p
    show sizeM (runOps scorer min_score (r.add p) rest).1.by_name
        + (runOps scorer min_score (r.add p) rest).2.length
      = sizeM r.by_name + (numAdds rest + 1)
    omega

theorem runOps_mem_pos (scorer : String → String → Nat) (min_score : Nat) :
    ∀ (ops : List RegOp) (r : FileRegistry), RegWF r → takesOnly ops →
    ∀ q ∈ (runOps scorer min_score r ops).2, 1 ≤ countIn r.by_name q
  | [], _, _, _, q, hq => by cases hq
  | RegOp.takeOp l :: rest, r, hwf, hto, q, hq => by
    cases ht : r.take l min_score scorer with
    | mk po r' =>
      cases po with
      | some p =>
        obtain ⟨hcnt, hr'⟩ := take_some hwf ht
        have hwf' : RegWF r' := by
          rw [hr']
          exact regWF_unregister r p hwf hcnt
        have hrun : runOps scorer min_score r (RegOp.takeOp l :: rest)
            = ((runOps scorer min_score r' rest).1,
               p :: (runOps scorer min_score r' rest).2) := by
          show (match r.take l min_score scorer with
            | (some p, r') =>
              ((runOps scorer min_score r' rest).1,
               p :: (runOps scorer min_score r' rest).2)
            | (none, r') => runOps scorer min_score r' rest) = _
          rw [ht]
        rw [hrun] at hq
        rcases List.mem_cons.mp hq with hq | hq
        · rw [hq]
          exact hcnt
        · have := runOps_mem_pos scorer min_score rest r' hwf' hto q hq
          calc 1 ≤ countIn r'.by_name q := this
            _ ≤ countIn r.by_name q := by
              rw [hr']
              exact countIn_unregister_le r p q
      | none =>
        have hr' : r' = r := take_frame ht
        have hrun : runOps scorer min_score r (RegOp.takeOp l :: rest)
            = runOps scorer min_score r rest := by
          show (match r.take l min_score scorer with
            | (some p, r') =>
              ((runOps scorer min_score r' rest).1,
               p :: (runOps scorer min_score r' rest).2)
            | (none, r') => runOps scorer min_score r' rest) = _
          rw [ht, hr']
        rw [hrun] at hq
        exact runOps_mem_pos scorer min_score rest r hwf hto q hq
  | RegOp.addOp p :: rest, r, hwf, hto, q, hq => absurd hto (by simp [takesOnly])

theorem runOps_nodup (scorer : String → String → Nat) (min_score : Nat) :
    ∀ (ops : List RegOp) (r : FileRegistry), RegWF r →
    (∀ q, countIn r.by_name q ≤ 1) → takesOnly ops →
    (runOps scorer min_score r ops).2.Nodup
  | [], _, _, _, _ => List.nodup_nil
  | RegOp.takeOp l :: rest, r, hwf, hone, hto => by
    cases ht : r.take l min_score scorer with
    | mk po r' =>
      cases po with
      | some p =>
        obtain ⟨hcnt, hr'⟩ := take_some hwf ht
        have hwf' : RegWF r' := by
          rw [hr']
          exact regWF_unregister r p hwf hcnt
        have hone' : ∀ q, countIn r'.by_name q ≤ 1 := by
          intro q
          calc countIn r'.by_name q ≤ countIn r.by_name q := by
                rw [hr']
                exact countIn_unregister_le r p q
            _ ≤ 1 := hone q
        have hzero : countIn r'.by_name p = 0 := by
          have h1 : countIn r'.by_name p + 1 = countIn r.by_name p := by
            rw [hr']
            exact countIn_unregister_self r p hwf hcnt
          have h2 := hone p
          omega
        have hrun : runOps scorer min_score r (RegOp.takeOp l :: rest)
            = ((runOps scorer min_score r' rest).1,
               p :: (runOps scorer min_score r' rest).2) := by
          show (match r.take l min_score scorer with
            | (some p, r') =>
              ((runOps scorer min_score r' rest).1,
               p :: (runOps scorer min_score r' rest).2)
            | (none, r') => runOps scorer min_score r' rest) = _
          rw [ht]
        rw [hrun]
        refine List.nodup_cons.mpr ⟨?_, runOps_nodup scorer min_score rest r' hwf' hone' hto⟩
        intro hpmem
        have := runOps_mem_pos scorer min_score rest r' hwf' hto p hpmem
        omega
      | none =>
        have hr' : r' = r := take_frame ht
        have hrun : runOps scorer min_score r (RegOp.takeOp l :: rest)
            = runOps scorer min_score r rest := by
          show (match r.take l min_score scorer with
            | (some p, r') =>
              ((runOps scorer min_score r' rest).1,
               p :: (runOps scorer min_score r' rest).2)
            | (none, r') => runOps scorer min_score r' rest) = _
          rw [ht, hr']
        rw [hrun]
        exact runOps_nodup scorer min_score rest r hwf hone hto
  | RegOp.addOp p :: rest, r, hwf, hone, hto => absurd hto (by simp [takesOnly])

/-- C1 (amended): in one rename pass, after N successful `take` calls and K
`add` calls on a registry built from a pool of M files the registry holds
exactly M − N + K candidates (stated without subtraction: final size plus N
equals M plus K); and as long as no `add` interleaves the takes — an `add`
can return a candidate that a later `take` then hands out again — every two
successful takes of the pass receive distinct candidates, provided the pool
had no duplicate paths. -/
theorem claim_C1_registry_conservation (scorer : String → String → Nat)
    (min_score : Nat) (pool : List String) (ops : List RegOp) :
    sizeM (runOps scorer min_score (FileRegistry.ofPool pool) ops).1.by_name
        + (runOps scorer min_score (FileRegistry.ofPool pool) ops).2.length
      = pool.length + numAdds ops
    ∧ (pool.Nodup → takesOnly ops →
        (runOps scorer min_score (FileRegistry.ofPool pool) ops).2.Nodup) := by
  constructor
  · have h := runOps_size scorer min_score ops (FileRegistry.ofPool pool)
      (regWF_ofPool pool)
    rw [sizeM_ofPool] at h
    exact h
  · intro hnd hto
    apply runOps_nodup scorer min_score ops (FileRegistry.ofPool pool)
      (regWF_ofPool pool) ?_ hto
    intro q
    rw [countIn_ofPool]
    exact List.nodup_iff_count_le_one.mp hnd q

/-- C1 counterexample: the claim as frozen also asserts that no two rows ever
receive the same candidate from successful takes; after a take, an add-back
(the Unchanged/Conflict/Error paths of the rename loop) and a second take
with the same lookup, both successful takes return the very same path. -/
theorem claim_C1_duplicate_take_cex :
    (runOps (fun _ _ => 0) 90 (FileRegistry.ofPool ["a.mp4"])
        [RegOp.takeOp "a.mp4", RegOp.addOp "a.mp4", RegOp.takeOp "a.mp4"]).2
      = ["a.mp4", "a.mp4"]
    ∧ ¬ (runOps (fun _ _ => 0) 90 (FileRegistry.ofPool ["a.mp4"])
        [RegOp.takeOp "a.mp4", RegOp.addOp "a.mp4", RegOp.takeOp "a.mp4"]).2.Nodup := by
  constructor
  · rfl
  · decide

/-- Witness for C1 at a concrete pool and a concrete take-only pass. -/
theorem claim_C1_witness :
    (sizeM (runOps (fun _ _ => 0) 90 (FileRegistry.ofPool ["a.mp4", "b.mp4"])
        [RegOp.takeOp "a.mp4", RegOp.takeOp "zzz"]).1.by_name
      + (runOps (fun _ _ => 0) 90 (FileRegistry.ofPool ["a.mp4", "b.mp4"])
        [RegOp.takeOp "a.mp4", RegOp.takeOp "zzz"]).2.length
      = ["a.mp4", "b.mp4"].length
          + numAdds [RegOp.takeOp "a.mp4", RegOp.takeOp "zzz"])
    ∧ (runOps (fun _ _ => 0) 90 (FileRegistry.ofPool ["a.mp4", "b.mp4"])
        [RegOp.takeOp "a.mp4", RegOp.takeOp "zzz"]).2.Nodup := by
  have h := claim_C1_registry_conservation (fun _ _ => 0) 90 ["a.mp4", "b.mp4"]
    [RegOp.takeOp "a.mp4", RegOp.takeOp "zzz"]
  exact ⟨h.1, h.2 (by decide) (by exact trivial)⟩

/-- C2: whenever the lookup's full name key (lowercased stripped basename) has
a non-empty bucket in `by_name`, `take` returns exactly the lexicographically
least path stored under that key — the exact tier answers, and the stem and
fuzzy tiers are never consulted. -/
theorem claim_C2_take_exact_precedence (r : FileRegistry) (lookup : String)
    (min_score : Nat) (scorer : String → String → Nat)
    (hcand : pyStrip (baseName lookup) ≠ "")
    (hb : bucketOf r.by_name (pyLower (pyStrip (baseName lookup))) ≠ []) :
    (r.take lookup min_score scorer).1
        = some (bucketPick (bucketOf r.by_name (pyLower (pyStrip (baseName lookup)))))
    ∧ bucketPick (bucketOf r.by_name (pyLower (pyStrip (baseName lookup))))
        ∈ bucketOf r.by_name (pyLower (pyStrip (baseName lookup)))
    ∧ ∀ q ∈ bucketOf r.by_name (pyLower (pyStrip (baseName lookup))),
        bucketPick (bucketOf r.by_name (pyLower (pyStrip (baseName lookup)))) ≤ q := by
  refine ⟨?_, bucketPick_mem hb, bucketPick_min hb⟩
  simp only [FileRegistry.take]
  rw [if_neg hcand, if_pos hb]

/-- Witness for C2: a lookup differing in case and padding from the stored
file still resolves through the exact tier. -/
theorem claim_C2_witness :
    ((FileRegistry.ofPool ["x.mp4"]).take "X.MP4 " 90 (fun _ _ => 0)).1
        = some (bucketPick (bucketOf (FileRegistry.ofPool ["x.mp4"]).by_name
            (pyLower (pyStrip (baseName "X.MP4 ")))))
    ∧ bucketPick (bucketOf (FileRegistry.ofPool ["x.mp4"]).by_name
          (pyLower (pyStrip (baseName "X.MP4 "))))
        ∈ bucketOf (FileRegistry.ofPool ["x.mp4"]).by_name
            (pyLower (pyStrip (baseName "X.MP4 ")))
    ∧ ∀ q ∈ bucketOf (FileRegistry.ofPool ["x.mp4"]).by_name
          (pyLower (pyStrip (baseName "X.MP4 "))),
        bucketPick (bucketOf (FileRegistry.ofPool ["x.mp4"]).by_name
            (pyLower (pyStrip (baseName "X.MP4 ")))) ≤ q :=
  claim_C2_take_exact_precedence (FileRegistry.ofPool ["x.mp4"]) "X.MP4 " 90
    (fun _ _ => 0) (by decide) (by decide)

/-- C9: a lookup whose basename strips to the empty string makes `take` return
`None` with the registry — both indices — unchanged; no matching tier runs. -/
theorem claim_C9_take_blank (r : FileRegistry) (lookup : String)
    (min_score : Nat) (scorer : String → String → Nat)
    (h : pyStrip (baseName lookup) = "") :
    r.take lookup min_score scorer = (none, r) := by
  simp only [FileRegistry.take]
  rw [if_pos h]

/-- Witness for C9: a whitespace-only lookup on a concrete registry. -/
theorem claim_C9_witness :
    (FileRegistry.ofPool ["a.mp4"]).take "   " 90 (fun _ _ => 0)
      = (none, FileRegistry.ofPool ["a.mp4"]) :=
  claim_C9_take_blank (FileRegistry.ofPool ["a.mp4"]) "   " 90 (fun _ _ => 0)
    (by decide)

/-- Characters kept by `slugify_filename` (regex class `[A-Za-z0-9_.-]`). -/
def isSlugSafe (c : Char) : Bool :=
  ('A' ≤ c ∧ c ≤ 'Z') ∨ ('a' ≤ c ∧ c ≤ 'z') ∨ ('0' ≤ c ∧ c ≤ '9')
    ∨ c = '_' ∨ c = '.' ∨ c = '-'

/-- Python `re.sub(r"_+", "_", s)`: squeeze runs of underscores, tracking
whether the previous kept character was an underscore. -/
def squeezeUs : List Char → Bool → List Char
  | [], _ => []
  | c :: rest, prev =>
    if c = '_' then
      if prev then squeezeUs rest true else '_' :: squeezeUs rest true
    else c :: squeezeUs rest false

/-- Python `value.strip("._")`. -/
def stripDotUnderscore (l : List Char) : List Char :=
  ((l.dropWhile (fun c => c = '.' ∨ c = '_')).reverse.dropWhile
    (fun c => c = '.' ∨ c = '_')).reverse

/-- Embeds `slugify_filename` of `4_Change_name.py`: strip, spaces to
underscores, unsafe characters to underscores, squeeze underscore runs,
strip leading/trailing dots and underscores. -/
def slugify_filename (name : String) : String :=
  let v1 := pyStripList name.data
  let v2 := v1.map (fun c => if c = ' ' then '_' else c)
  let v3 := v2.map (fun c => if isSlugSafe c then c else '_')
  ⟨stripDotUnderscore (squeezeUs v3 false)⟩

/-- Python `ext.startswith(".")`. -/
def startsWithDot (s : String) : Bool :=
  match s.data with
  | '.' :: _ => true
  | _ => false

/-- Embeds `ensure_target_filename` of `4_Change_name.py`. -/
def ensure_target_filename (new_name : String) (source_path : String) : String :=
  let candidate := pyStrip new_name
  if candidate = "" then
    let base := stemOf (baseName source_path)
    let ext := suffixOf (baseName source_path)
    let safe_base :=
      if slugify_filename base ≠ "" then slugify_filename base else "file"
    safe_base ++ ext
  else
    let candSuffix := suffixOf (baseName candidate)
    let ext := if candSuffix ≠ "" then candSuffix
      else suffixOf (baseName source_path)
    let stem := if candSuffix ≠ "" then stemOf (baseName candidate) else candidate
    let safe_stem :=
      if slugify_filename stem ≠ "" then slugify_filename stem
      else if slugify_filename (stemOf (baseName source_path)) ≠ "" then
        slugify_filename (stemOf (baseName source_path))
      else "file"
    let ext2 := if ext ≠ "" ∧ ¬(startsWithDot ext = true) then "." ++ ext else ext
    safe_stem ++ ext2

/-- Python `source.with_name(target_name)`: the directory part of the source
followed by the new name. -/
def withName (p n : String) : String :=
  ⟨p.data.take (p.data.length
    - (p.data.reverse.takeWhile (fun c => c ≠ '/')).length) ++ n.data⟩

/-- The desired target path of a row, as computed by lines 228-230 of
`4_Change_name.py`: `base_title = new_name or source.stem`, sanitized by
`ensure_target_filename`, placed next to the source by `with_name`. -/
def targetPathFor (new_name source : String) : String :=
  withName source (ensure_target_filename
    (if new_name ≠ "" then new_name else stemOf (baseName source)) source)

/-- The outcome of resolving one row of the rename loop. -/
inductive Outcome where
  | renamed
  | unchanged
  | notFound
  | conflict
  | errored
deriving DecidableEq, Repr

/-- State after resolving one row: its outcome, the filesystem (the set of
existing paths), and the registry. -/
structure StepResult where
  outcome : Outcome
  fs : List String
  reg : FileRegistry
deriving DecidableEq, Repr

/-- Embeds one iteration of the row loop of `main` in `4_Change_name.py`
(lines 219-253). The filesystem is a list of existing paths; `renameOk`
models whether `source.rename(target_path)` succeeds or raises. -/
def processRow (renameOk : String → String → Bool)
    (scorer : String → String → Nat) (threshold : Nat)
    (fs : List String) (reg : FileRegistry) (row : Nat × String × String) :
    StepResult :=
  match reg.take row.2.2 threshold scorer with
  | (none, reg') => ⟨Outcome.notFound, fs, reg'⟩
  | (some source, reg') =>
    let target_path := targetPathFor row.2.1 source
    if target_path = source then ⟨Outcome.unchanged, fs, reg'.add source⟩
    else if target_path ∈ fs then ⟨Outcome.conflict, fs, reg'.add source⟩
    else if renameOk source target_path then
      ⟨Outcome.renamed, fs.erase source ++ [target_path], reg'.add target_path⟩
    else ⟨Outcome.errored, fs, reg'.add source⟩

/-- Embeds the whole row loop: rows are processed in table order, each row
threading the filesystem and registry to the next, and every row yields
exactly one outcome. -/
def processRows (renameOk : String → String → Bool)
    (scorer : String → String → Nat) (threshold : Nat) :
    List String → FileRegistry → List (Nat × String × String) →
    List (Nat × Outcome) × List String × FileRegistry
  | fs, reg, [] => ([], fs, reg)
  | fs, reg, row :: rest =>
    let st := processRow renameOk scorer threshold fs reg row
    let next := processRows renameOk scorer threshold st.fs st.reg rest
    ((row.1, st.outcome) :: next.1, next.2)

theorem processRows_length (renameOk : String → String → Bool)
    (scorer : String → String → Nat) (threshold : Nat) :
    ∀ (rows : List (Nat × String × String)) (fs : List String) (reg : FileRegistry),
    (processRows renameOk scorer threshold fs reg rows).1.length = rows.length
  | [], _, _ => rfl
  | row :: rest, fs, reg => by
    show ((row.1, _) :: _).length = _
    simp only [List.length_cons]
    exact congrArg (· + 1)
      (processRows_length renameOk scorer threshold rest _ _)

theorem bucketOf_appendAt_self (m : List (String × List String)) (k p : String) :
    bucketOf (appendAt m k p) k = bucketOf m k ++ [p] := by
  induction m with
  | nil => simp [appendAt, bucketOf, lookupM]
  | cons e rest ih =>
    by_cases he : e.1 = k
    · rw [appendAt_cons_pos he, bucketOf_cons, bucketOf_cons, if_pos he, if_pos he]
    · rw [appendAt_cons_neg he, bucketOf_cons, bucketOf_cons, if_neg he, if_neg he]
      exact ih

theorem bucketOf_appendAt_other (m : List (String × List String))
    (k p k' : String) (h : k' ≠ k) :
    bucketOf (appendAt m k p) k' = bucketOf m k' := by
  have hkk : ¬k = k' := fun hx => h hx.symm
  induction m with
  | nil =>
    show bucketOf [(k, [p])] k' = bucketOf [] k'
    rw [bucketOf_cons, if_neg hkk]
  | cons e rest ih =>
    by_cases he : e.1 = k
    · have hne : ¬e.1 = k' := fun hx => h (hx.symm.trans he)
      rw [appendAt_cons_pos he, bucketOf_cons, bucketOf_cons, if_neg hne, if_neg hne]
    · rw [appendAt_cons_neg he, bucketOf_cons, bucketOf_cons]
      by_cases he' : e.1 = k'
      · rw [if_pos he', if_pos he']
      · rw [if_neg he', if_neg he']
        exact ih

theorem bucketOf_eq_nil_of_no_key (m : List (String × List String)) (k : String)
    (h : ∀ e ∈ m, e.1 ≠ k) : bucketOf m k = [] := by
  induction m with
  | nil => rfl
  | cons e rest ih =>
    rw [bucketOf_cons, if_neg (h e (List.mem_cons_self _ _))]
    exact ih (fun e' he' => h e' (List.mem_cons_of_mem _ he'))

theorem bucketOf_removeFromMap_self (m : List (String × List String)) (k p : String)
    (hnd : (m.map (fun e => e.1)).Nodup) (hp : p ∈ bucketOf m k) :
    bucketOf (removeFromMap m k p) k = (bucketOf m k).erase p := by
  induction m with
  | nil => simp [bucketOf, lookupM] at hp
  | cons e rest ih =>
    rw [List.map_cons, List.nodup_cons] at hnd
    rw [bucketOf_cons] at hp
    by_cases he : e.1 = k
    · rw [if_pos he] at hp
      rw [removeFromMap_cons_pos_mem he hp, bucketOf_cons, if_pos he]
      by_cases hz : e.2.erase p = []
      · rw [if_pos hz, hz]
        apply bucketOf_eq_nil_of_no_key
        intro e' he' hk
        apply hnd.1
        rw [he, ← hk]
        exact List.mem_map.mpr ⟨e', he', rfl⟩
      · rw [if_neg hz, bucketOf_cons, if_pos he]
    · rw [if_neg he] at hp
      rw [removeFromMap_cons_neg he, bucketOf_cons, bucketOf_cons,
        if_neg he, if_neg he]
      exact ih hnd.2 hp

theorem bucketOf_removeFromMap_other (m : List (String × List String))
    (k p k' : String) (h : k' ≠ k) :
    bucketOf (removeFromMap m k p) k' = bucketOf m k' := by
  induction m with
  | nil => rfl
  | cons e rest ih =>
    by_cases he : e.1 = k
    · have hne : ¬e.1 = k' := fun hx => h (hx.symm.trans he)
      by_cases hp : p ∈ e.2
      · rw [removeFromMap_cons_pos_mem he hp]
        by_cases hz : e.2.erase p = []
        · rw [if_pos hz, bucketOf_cons, if_neg hne]
        · rw [if_neg hz, bucketOf_cons, bucketOf_cons, if_neg hne, if_neg hne]
      · rw [removeFromMap_cons_pos_notmem he hp]
    · rw [removeFromMap_cons_neg he, bucketOf_cons, bucketOf_cons]
      by_cases he' : e.1 = k'
      · rw [if_pos he', if_pos he']
      · rw [if_neg he', if_neg he']
        exact ih

theorem processRow_take_some (renameOk : String → String → Bool)
    (scorer : String → String → Nat) (threshold : Nat)
    (fs : List String) (reg reg' : FileRegistry)
    (row : Nat × String × String) (source : String)
    (htake : reg.take row.2.2 threshold scorer = (some source, reg')) :
    processRow renameOk scorer threshold fs reg row
      = (if targetPathFor row.2.1 source = source then
           (⟨Outcome.unchanged, fs, reg'.add source⟩ : StepResult)
         else if targetPathFor row.2.1 source ∈ fs then
           ⟨Outcome.conflict, fs, reg'.add source⟩
         else if renameOk source (targetPathFor row.2.1 source) then
           ⟨Outcome.renamed, fs.erase source ++ [targetPathFor row.2.1 source],
             reg'.add (targetPathFor row.2.1 source)⟩
         else ⟨Outcome.errored, fs, reg'.add source⟩) := by
  show (match reg.take row.2.2 threshold scorer with
    | (none, reg') => (⟨Outcome.notFound, fs, reg'⟩ : StepResult)
    | (some source, reg') =>
      let target_path := targetPathFor row.2.1 source
      if target_path = source then ⟨Outcome.unchanged, fs, reg'.add source⟩
      else if target_path ∈ fs then ⟨Outcome.conflict, fs, reg'.add source⟩
      else if renameOk source target_path then
        ⟨Outcome.renamed, fs.erase source ++ [target_path], reg'.add target_path⟩
      else ⟨Outcome.errored, fs, reg'.add source⟩) = _
  rw [htake]

theorem unregister_add_buckets (r : FileRegistry) (p : String) (hwf : RegWF r)
    (hcnt : 1 ≤ countIn r.by_name p) :
    (∀ k, (bucketOf ((r._unregister p).add p).by_name k : Multiset String)
        = (bucketOf r.by_name k : Multiset String))
    ∧ (∀ k, (bucketOf ((r._unregister p).add p).by_stem k : Multiset String)
        = (bucketOf r.by_stem k : Multiset String)) := by
  constructor
  · intro k
    show (bucketOf (appendAt (removeFromMap r.by_name (nameKey p) p) (nameKey p) p) k
      : Multiset String) = _
    by_cases hk : k = nameKey p
    · rw [hk, bucketOf_appendAt_self,
        bucketOf_removeFromMap_self r.by_name (nameKey p) p hwf.name_keys
          (mem_name_bucket_of_pos r p hwf hcnt)]
      apply Multiset.coe_eq_coe.mpr
      exact (List.perm_append_singleton p _).trans
        (List.perm_cons_erase (mem_name_bucket_of_pos r p hwf hcnt)).symm
    · rw [bucketOf_appendAt_other _ _ _ _ hk, bucketOf_removeFromMap_other _ _ _ _ hk]
  · intro k
    show (bucketOf (appendAt (removeFromMap r.by_stem (stemKey p) p) (stemKey p) p) k
      : Multiset String) = _
    by_cases hk : k = stemKey p
    · rw [hk, bucketOf_appendAt_self,
        bucketOf_removeFromMap_self r.by_stem (stemKey p) p hwf.stem_keys
          (mem_stem_bucket_of_pos r p hwf hcnt)]
      apply Multiset.coe_eq_coe.mpr
      exact (List.perm_append_singleton p _).trans
        (List.perm_cons_erase (mem_stem_bucket_of_pos r p hwf hcnt)).symm
    · rw [bucketOf_appendAt_other _ _ _ _ hk, bucketOf_removeFromMap_other _ _ _ _ hk]

/-- C3: when the taken candidate's desired target name already exists in the
target directory (and differs from the source), the row's outcome is
Conflict, the filesystem is untouched — no rename happens, neither file
changes — and the candidate is added back to the registry, where it is again
present (its occurrence count is positive), available to later rows. -/
theorem claim_C3_conflict_no_side_effect (renameOk : String → String → Bool)
    (scorer : String → String → Nat) (threshold : Nat)
    (fs : List String) (reg reg' : FileRegistry)
    (row : Nat × String × String) (source : String)
    (htake : reg.take row.2.2 threshold scorer = (some source, reg'))
    (hne : targetPathFor row.2.1 source ≠ source)
    (hex : targetPathFor row.2.1 source ∈ fs) :
    processRow renameOk scorer threshold fs reg row
        = ⟨Outcome.conflict, fs, reg'.add source⟩
    ∧ (processRow renameOk scorer threshold fs reg row).fs = fs
    ∧ 1 ≤ countIn (reg'.add source).by_name source := by
  have hstep := processRow_take_some renameOk scorer threshold fs reg reg'
    row source htake
  rw [if_neg hne, if_pos hex] at hstep
  refine ⟨hstep, by rw [hstep], ?_⟩
  show 1 ≤ countIn (appendAt reg'.by_name (nameKey source) source) source
  rw [countIn_appendAt, if_pos rfl]
  omega

/-- Witness for C3: a row whose sanitized target `Opening.mp4` already exists
on disk; the candidate `clip.mp4` is not renamed and returns to the pool. -/
theorem claim_C3_witness :
    processRow (fun _ _ => true) (fun _ _ => 0) 90 ["clip.mp4", "Opening.mp4"]
        (FileRegistry.ofPool ["clip.mp4"]) (2, "Opening", "clip.mp4")
        = ⟨Outcome.conflict, ["clip.mp4", "Opening.mp4"],
            (FileRegistry.mk [] []).add "clip.mp4"⟩
    ∧ (processRow (fun _ _ => true) (fun _ _ => 0) 90 ["clip.mp4", "Opening.mp4"]
        (FileRegistry.ofPool ["clip.mp4"]) (2, "Opening", "clip.mp4")).fs
        = ["clip.mp4", "Opening.mp4"]
    ∧ 1 ≤ countIn ((FileRegistry.mk [] []).add "clip.mp4").by_name "clip.mp4" :=
  claim_C3_conflict_no_side_effect (fun _ _ => true) (fun _ _ => 0) 90
    ["clip.mp4", "Opening.mp4"] (FileRegistry.ofPool ["clip.mp4"])
    (FileRegistry.mk [] []) (2, "Opening", "clip.mp4") "clip.mp4"
    (by decide) (by decide) (by decide)

/-- C5: when the rename side effect fails (the oracle models
`source.rename(target_path)` raising), the row's outcome is Error, the
filesystem is untouched, the original candidate is added back to the registry
(its count is positive again, so a later row may claim it); and the pass
never aborts: `processRows` yields exactly one outcome per row, whatever
happens. -/
theorem claim_C5_rename_failure_recovery (renameOk : String → String → Bool)
    (scorer : String → String → Nat) (threshold : Nat)
    (fs : List String) (reg reg' : FileRegistry)
    (row : Nat × String × String) (source : String)
    (htake : reg.take row.2.2 threshold scorer = (some source, reg'))
    (hne : targetPathFor row.2.1 source ≠ source)
    (hnotex : targetPathFor row.2.1 source ∉ fs)
    (hfail : renameOk source (targetPathFor row.2.1 source) = false) :
    processRow renameOk scorer threshold fs reg row
        = ⟨Outcome.errored, fs, reg'.add source⟩
    ∧ 1 ≤ countIn (reg'.add source).by_name source
    ∧ ∀ (rows : List (Nat × String × String)) (fs0 : List String)
        (reg0 : FileRegistry),
        (processRows renameOk scorer threshold fs0 reg0 rows).1.length
          = rows.length := by
  have hstep := processRow_take_some renameOk scorer threshold fs reg reg'
    row source htake
  rw [if_neg hne, if_neg hnotex] at hstep
  rw [show (if renameOk source (targetPathFor row.2.1 source) then
      (⟨Outcome.renamed, fs.erase source ++ [targetPathFor row.2.1 source],
        reg'.add (targetPathFor row.2.1 source)⟩ : StepResult)
    else ⟨Outcome.errored, fs, reg'.add source⟩)
      = ⟨Outcome.errored, fs, reg'.add source⟩ from by rw [hfail]; simp] at hstep
  refine ⟨hstep, ?_, ?_⟩
  · show 1 ≤ countIn (appendAt reg'.by_name (nameKey source) source) source
    rw [countIn_appendAt, if_pos rfl]
    omega
  · intro rows fs0 reg0
    exact processRows_length renameOk scorer threshold rows fs0 reg0

/-- Witness for C5: the oracle fails every rename; the row errors out, the
file stays, the candidate is back in the pool, and a two-row pass still
produces two outcomes. -/
theorem claim_C5_witness :
    processRow (fun _ _ => false) (fun _ _ => 0) 90 ["clip.mp4"]
        (FileRegistry.ofPool ["clip.mp4"]) (2, "Opening", "clip.mp4")
        = ⟨Outcome.errored, ["clip.mp4"], (FileRegistry.mk [] []).add "clip.mp4"⟩
    ∧ 1 ≤ countIn ((FileRegistry.mk [] []).add "clip.mp4").by_name "clip.mp4"
    ∧ ∀ (rows : List (Nat × String × String)) (fs0 : List String)
        (reg0 : FileRegistry),
        (processRows (fun _ _ => false) (fun _ _ => 0) 90 fs0 reg0 rows).1.length
          = rows.length :=
  claim_C5_rename_failure_recovery (fun _ _ => false) (fun _ _ => 0) 90
    ["clip.mp4"] (FileRegistry.ofPool ["clip.mp4"]) (FileRegistry.mk [] [])
    (2, "Opening", "clip.mp4") "clip.mp4"
    (by decide) (by decide) (by decide) (by decide)

/-- C8 (amended): when the sanitized target equals the candidate's current
path, the outcome is Unchanged, no rename happens (the filesystem is
untouched), and the candidate is added back, so every key of both indices
holds exactly the same multiset of candidates as before the row — but the
registry is not literally identical: re-adding moves the candidate's keys to
the end of the dict order, which the counterexample below exhibits. -/
theorem claim_C8_unchanged_same_candidates (renameOk : String → String → Bool)
    (scorer : String → String → Nat) (threshold : Nat)
    (fs : List String) (reg reg' : FileRegistry)
    (row : Nat × String × String) (source : String)
    (hwf : RegWF reg)
    (htake : reg.take row.2.2 threshold scorer = (some source, reg'))
    (heq : targetPathFor row.2.1 source = source) :
    processRow renameOk scorer threshold fs reg row
        = ⟨Outcome.unchanged, fs, reg'.add source⟩
    ∧ (processRow renameOk scorer threshold fs reg row).fs = fs
    ∧ (∀ k, (bucketOf (reg'.add source).by_name k : Multiset String)
        = (bucketOf reg.by_name k : Multiset String))
    ∧ (∀ k, (bucketOf (reg'.add source).by_stem k : Multiset String)
        = (bucketOf reg.by_stem k : Multiset String)) := by
  have hstep := processRow_take_some renameOk scorer threshold fs reg reg'
    row source htake
  rw [if_pos heq] at hstep
  obtain ⟨hcnt, hreg'⟩ := take_some hwf htake
  have hbuckets := unregister_add_buckets reg source hwf hcnt
  rw [hreg']
  exact ⟨by rw [hstep, hreg'], by rw [hstep], hbuckets.1, hbuckets.2⟩

/-- C8 counterexample: on a two-file pool, an Unchanged row leaves the
filesystem alone but returns a registry that differs from the original —
the key of the taken-and-returned candidate has moved to the end of both
dict orders — so "the registry is the same as before" is false as stated. -/
theorem claim_C8_registry_reorder_cex :
    (processRow (fun _ _ => true) (fun _ _ => 0) 90 ["a.mp4", "b.mp4"]
        (FileRegistry.ofPool ["a.mp4", "b.mp4"]) (1, "", "a.mp4")).outcome
      = Outcome.unchanged
    ∧ (processRow (fun _ _ => true) (fun _ _ => 0) 90 ["a.mp4", "b.mp4"]
        (FileRegistry.ofPool ["a.mp4", "b.mp4"]) (1, "", "a.mp4")).fs
      = ["a.mp4", "b.mp4"]
    ∧ (processRow (fun _ _ => true) (fun _ _ => 0) 90 ["a.mp4", "b.mp4"]
        (FileRegistry.ofPool ["a.mp4", "b.mp4"]) (1, "", "a.mp4")).reg
      ≠ FileRegistry.ofPool ["a.mp4", "b.mp4"] := by
  refine ⟨rfl, rfl, ?_⟩
  decide

/-- Witness for C8 at the same concrete input as the counterexample: the
amended statement — Unchanged outcome, untouched filesystem, identical
bucket multisets under every key — holds there. -/
theorem claim_C8_witness :
    processRow (fun _ _ => true) (fun _ _ => 0) 90 ["a.mp4", "b.mp4"]
        (FileRegistry.ofPool ["a.mp4", "b.mp4"]) (1, "", "a.mp4")
        = ⟨Outcome.unchanged, ["a.mp4", "b.mp4"],
            (FileRegistry.mk [("b.mp4", ["b.mp4"])] [("b", ["b.mp4"])]).add "a.mp4"⟩
    ∧ (processRow (fun _ _ => true) (fun _ _ => 0) 90 ["a.mp4", "b.mp4"]
        (FileRegistry.ofPool ["a.mp4", "b.mp4"]) (1, "", "a.mp4")).fs
        = ["a.mp4", "b.mp4"]
    ∧ (∀ k, (bucketOf ((FileRegistry.mk [("b.mp4", ["b.mp4"])]
          [("b", ["b.mp4"])]).add "a.mp4").by_name k : Multiset String)
        = (bucketOf (FileRegistry.ofPool ["a.mp4", "b.mp4"]).by_name k
            : Multiset String))
    ∧ (∀ k, (bucketOf ((FileRegistry.mk [("b.mp4", ["b.mp4"])]
          [("b", ["b.mp4"])]).add "a.mp4").by_stem k : Multiset String)
        = (bucketOf (FileRegistry.ofPool ["a.mp4", "b.mp4"]).by_stem k
            : Multiset String)) :=
  claim_C8_unchanged_same_candidates (fun _ _ => true) (fun _ _ => 0) 90
    ["a.mp4", "b.mp4"] (FileRegistry.ofPool ["a.mp4", "b.mp4"])
    (FileRegistry.mk [("b.mp4", ["b.mp4"])] [("b", ["b.mp4"])])
    (1, "", "a.mp4") "a.mp4"
    (regWF_ofPool ["a.mp4", "b.mp4"]) (by decide) (by decide)

/-- Python `row and row[0].strip().lower() == "cell"`: the header test applied
to row 1 by `get_rows`. -/
def headerCell (row : List String) : Bool :=
  match row with
  | [] => false
  | c :: _ => pyLower (pyStrip c) = "cell"

/-- Embeds the loop body of `get_rows` in `4_Change_name.py`, carrying the
1-based row index of `enumerate(values, start=1)`. -/
def getRowsAux : Nat → List (List String) → List (Nat × String × String)
  | _, [] => []
  | idx, row :: rest =>
    if idx = 1 ∧ headerCell row then getRowsAux (idx + 1) rest
    else
      let new_name := pyStrip (row.getD 0 "")
      let match_title := pyStrip (row.getD 2 "")
      if match_title = "" then getRowsAux (idx + 1) rest
      else (idx, new_name, match_title) :: getRowsAux (idx + 1) rest

/-- Embeds `get_rows` of `4_Change_name.py`. -/
def get_rows (values : List (List String)) : List (Nat × String × String) :=
  getRowsAux 1 values

theorem getRowsAux_mem : ∀ (values : List (List String)) (start idx : Nat)
    (n m : String), 2 ≤ start →
    ((idx, n, m) ∈ getRowsAux start values ↔
      ∃ j row, values.get? j = some row ∧ idx = start + j
        ∧ n = pyStrip (row.getD 0 "") ∧ m = pyStrip (row.getD 2 "") ∧ m ≠ "")
  | [], start, idx, n, m, _ => by
    constructor
    · intro h
      cases h
    · intro ⟨j, row, hj, _⟩
      simp at hj
  | row :: rest, start, idx, n, m, hstart => by
    have hnothdr : ¬(start = 1 ∧ headerCell row) := by
      intro ⟨h1, _⟩
      omega
    constructor
    · intro h
      rw [show getRowsAux start (row :: rest)
          = (if pyStrip (row.getD 2 "") = "" then getRowsAux (start + 1) rest
             else (start, pyStrip (row.getD 0 ""), pyStrip (row.getD 2 ""))
               :: getRowsAux (start + 1) rest) from by
        show (if start = 1 ∧ headerCell row then _ else _) = _
        rw [if_neg hnothdr]] at h
      by_cases hm : pyStrip (row.getD 2 "") = ""
      · rw [if_pos hm] at h
        obtain ⟨j, row', hj, hidx, hrest⟩ :=
          ((getRowsAux_mem rest (start + 1) idx n m (by omega)).mp h)
        exact ⟨j + 1, row', by simpa using hj, by omega, hrest⟩
      · rw [if_neg hm] at h
        rcases List.mem_cons.mp h with h | h
        · injection h with h1 h2
          injection h2 with h2 h3
          exact ⟨0, row, by simp, by omega, h2, h3, h3 ▸ hm⟩
        · obtain ⟨j, row', hj, hidx, hrest⟩ :=
            ((getRowsAux_mem rest (start + 1) idx n m (by omega)).mp h)
          exact ⟨j + 1, row', by simpa using hj, by omega, hrest⟩
    · intro ⟨j, row', hj, hidx, hn, hm, hmne⟩
      rw [show getRowsAux start (row :: rest)
          = (if pyStrip (row.getD 2 "") = "" then getRowsAux (start + 1) rest
             else (start, pyStrip (row.getD 0 ""), pyStrip (row.getD 2 ""))
               :: getRowsAux (start + 1) rest) from by
        show (if start = 1 ∧ headerCell row then _ else _) = _
        rw [if_neg hnothdr]]
      cases j with
      | zero =>
        simp only [List.get?] at hj
        injection hj with hj
        subst hj
        have hm0 : ¬pyStrip (row.getD 2 "") = "" := by
          rw [← hm]
          exact hmne
        rw [if_neg hm0]
        apply List.mem_cons.mpr
        left
        have hidx0 : idx = start := by omega
        rw [hidx0, hn, hm]
      | succ j' =>
        have hmem : (idx, n, m) ∈ getRowsAux (start + 1) rest :=
          (getRowsAux_mem rest (start + 1) idx n m (by omega)).mpr
            ⟨j', row', by simpa using hj, by omega, hn, hm, hmne⟩
        by_cases hm0 : pyStrip (row.getD 2 "") = ""
        · rw [if_pos hm0]
          exact hmem
        · rw [if_neg hm0]
          exact List.mem_cons_of_mem _ hmem

theorem get_rows_mem_iff (values : List (List String)) (idx : Nat)
    (n m : String) :
    (idx, n, m) ∈ get_rows values ↔
      ∃ j row, values.get? j = some row ∧ idx = 1 + j
        ∧ ¬(idx = 1 ∧ headerCell row = true)
        ∧ n = pyStrip (row.getD 0 "") ∧ m = pyStrip (row.getD 2 "") ∧ m ≠ "" := by
  cases values with
  | nil =>
    constructor
    · intro h
      cases h
    · intro ⟨j, row, hj, _⟩
      simp at hj
  | cons row rest =>
    show (idx, n, m) ∈ getRowsAux 1 (row :: rest) ↔ _
    by_cases hdr : headerCell row
    · rw [show getRowsAux 1 (row :: rest) = getRowsAux 2 rest from by
        show (if 1 = 1 ∧ headerCell row then _ else _) = _
        rw [if_pos ⟨rfl, hdr⟩]]
      rw [getRowsAux_mem rest 2 idx n m (by omega)]
      constructor
      · intro ⟨j, row', hj, hidx, hrest⟩
        refine ⟨j + 1, row', by simpa using hj, by omega, ?_, hrest⟩
        intro ⟨h1, _⟩
        omega
      · intro ⟨j, row', hj, hidx, hnh, hrest⟩
        cases j with
        | zero =>
          simp only [List.get?] at hj
          injection hj with hj
          subst hj
          exact absurd ⟨by omega, hdr⟩ hnh
        | succ j' =>
          exact ⟨j', row', by simpa using hj, by omega, hrest⟩
    · rw [show getRowsAux 1 (row :: rest)
          = (if pyStrip (row.getD 2 "") = "" then getRowsAux 2 rest
             else (1, pyStrip (row.getD 0 ""), pyStrip (row.getD 2 ""))
               :: getRowsAux 2 rest) from by
        show (if 1 = 1 ∧ headerCell row then _ else _) = _
        rw [if_neg (fun hx => hdr hx.2)]]
      constructor
      · intro h
        by_cases hm0 : pyStrip (row.getD 2 "") = ""
        · rw [if_pos hm0] at h
          obtain ⟨j, row', hj, hidx, hrest⟩ :=
            (getRowsAux_mem rest 2 idx n m (by omega)).mp h
          refine ⟨j + 1, row', by simpa using hj, by omega, ?_, hrest⟩
          intro ⟨h1, _⟩
          omega
        · rw [if_neg hm0] at h
          rcases List.mem_cons.mp h with h | h
          · injection h with h1 h2
            injection h2 with h2 h3
            refine ⟨0, row, by simp, by omega, ?_, h2, h3, h3 ▸ hm0⟩
            intro ⟨_, hx⟩
            exact hdr hx
          · obtain ⟨j, row', hj, hidx, hrest⟩ :=
              (getRowsAux_mem rest 2 idx n m (by omega)).mp h
            refine ⟨j + 1, row', by simpa using hj, by omega, ?_, hrest⟩
            intro ⟨h1, _⟩
            omega
      · intro ⟨j, row', hj, hidx, hnh, hn, hm, hmne⟩
        cases j with
        | zero =>
          simp only [List.get?] at hj
          injection hj with hj
          subst hj
          have hm0 : ¬pyStrip (row.getD 2 "") = "" := by
            rw [← hm]
            exact hmne
          rw [if_neg hm0]
          apply List.mem_cons.mpr
          left
          have hidx0 : idx = 1 := by omega
          rw [hidx0, hn, hm]
        | succ j' =>
          have hmem : (idx, n, m) ∈ getRowsAux 2 rest :=
            (getRowsAux_mem rest 2 idx n m (by omega)).mpr
              ⟨j', row', by simpa using hj, by omega, hn, hm, hmne⟩
          by_cases hm0 : pyStrip (row.getD 2 "") = ""
          · rw [if_pos hm0]
            exact hmem
          · rw [if_neg hm0]
            exact List.mem_cons_of_mem _ hmem

/-- C10: membership in `get_rows` is exactly: the row exists at 1-based index
`idx` in the table, it is not the skipped header (row 1 whose first cell,
stripped and lowercased, is "cell"), its stripped third column is the
non-empty match key, and its stripped first column is the new name — so a
row with an empty or missing match-key column produces no output at all, and
every returned row has a non-empty match key. -/
theorem claim_C10_get_rows_shape (values : List (List String)) (idx : Nat)
    (n m : String) :
    ((idx, n, m) ∈ get_rows values ↔
      ∃ j row, values.get? j = some row ∧ idx = 1 + j
        ∧ ¬(idx = 1 ∧ headerCell row = true)
        ∧ n = pyStrip (row.getD 0 "") ∧ m = pyStrip (row.getD 2 "") ∧ m ≠ "")
    ∧ ∀ e ∈ get_rows values, e.2.2 ≠ "" := by
  refine ⟨get_rows_mem_iff values idx n m, ?_⟩
  intro e he
  obtain ⟨j, row, hj, hidx, hnh, hn, hm, hmne⟩ :=
    (get_rows_mem_iff values e.1 e.2.1 e.2.2).mp he
  exact hmne

/-- Witness for C10: a concrete table with a header row, a live row and a row
with an empty match key. -/
theorem claim_C10_witness :
    (((2, "New", "Old") ∈ get_rows [["Cell", "u", "t"], ["New", "url", "Old"],
        ["X", "u", ""]] ↔
      ∃ j row, [["Cell", "u", "t"], ["New", "url", "Old"],
          ["X", "u", ""]].get? j = some row ∧ 2 = 1 + j
        ∧ ¬(2 = 1 ∧ headerCell row = true)
        ∧ "New" = pyStrip (row.getD 0 "") ∧ "Old" = pyStrip (row.getD 2 "")
        ∧ "Old" ≠ ""))
    ∧ "Old" ≠ "" :=
  ⟨(claim_C10_get_rows_shape [["Cell", "u", "t"], ["New", "url", "Old"],
      ["X", "u", ""]] 2 "New" "Old").1,
   (claim_C10_get_rows_shape [["Cell", "u", "t"], ["New", "url", "Old"],
      ["X", "u", ""]] 2 "New" "Old").2 (2, "New", "Old") (by decide)⟩

/-- Numeric value of a run of ASCII digits. -/
def digitsVal (ds : List Char) : Nat :=
  ds.foldl (fun n c => 10 * n + (c.toNat - 48)) 0

/-- Value of a fractional part: Python `float("0." + ms)`. -/
def fracVal (ds : List Char) : ℚ :=
  (digitsVal ds : ℚ) / ((10 : ℚ) ^ ds.length)

/-- Maximal run of digits and the remaining input. -/
def takeDigits (l : List Char) : List Char × List Char :=
  (l.takeWhile Char.isDigit, l.dropWhile Char.isDigit)

/-- Skips regex `\s*`. -/
def skipWs (l : List Char) : List Char :=
  l.dropWhile pyIsSpace

/-- Parses `\d{1,2}:\d{2}` with an optional `.\d{1,3}` fraction, as in the
first regex of `parse_timestamp_str`; `to_sec` reads the two groups as
minutes and seconds. Returns the seconds value and the rest of the input. -/
def parseMMSS (l : List Char) : Option (ℚ × List Char) :=
  let (d1, r1) := takeDigits l
  if 1 ≤ d1.length ∧ d1.length ≤ 2 then
    match r1 with
    | ':' :: r2 =>
      let (d2, r3) := takeDigits r2
      if d2.length = 2 then
        let base : ℚ := (digitsVal d1 : ℚ) * 60 + (digitsVal d2 : ℚ)
        match r3 with
        | '.' :: r4 =>
          let (df, r5) := takeDigits r4
          if 1 ≤ df.length ∧ df.length ≤ 3 then some (base + fracVal df, r5)
          else none
        | _ => some (base, r3)
      else none
    | _ => none
  else none

/-- Parses `\d{1,2}:\d{2}:\d{2}` with an optional fraction, as in the second
regex of `parse_timestamp_str`; `hms` reads hours, minutes, seconds. -/
def parseHMS (l : List Char) : Option (ℚ × List Char) :=
  let (d1, r1) := takeDigits l
  if 1 ≤ d1.length ∧ d1.length ≤ 2 then
    match r1 with
    | ':' :: r2 =>
      let (d2, r3) := takeDigits r2
      if d2.length = 2 then
        match r3 with
        | ':' :: r4 =>
          let (d3, r5) := takeDigits r4
          if d3.length = 2 then
            let base : ℚ := (digitsVal d1 : ℚ) * 3600
              + (digitsVal d2 : ℚ) * 60 + (digitsVal d3 : ℚ)
            match r5 with
            | '.' :: r6 =>
              let (df, r7) := takeDigits r6
              if 1 ≤ df.length ∧ df.length ≤ 3 then some (base + fracVal df, r7)
              else none
            | _ => some (base, r5)
          else none
        | _ => none
      else none
    | _ => none
  else none

/-- Applies one time parser to `\s*T\s*-\s*T\s*$`: the anchored two-sided
pattern shared by both regexes of `parse_timestamp_str`. -/
def parsePair (timeP : List Char → Option (ℚ × List Char)) (l : List Char) :
    Option (ℚ × ℚ) :=
  match timeP (skipWs l) with
  | none => none
  | some (a, r1) =>
    match skipWs r1 with
    | '-' :: r2 =>
      match timeP (skipWs r2) with
      | none => none
      | some (b, r3) => if skipWs r3 = [] then some (a, b) else none
    | _ => none

/-- Embeds `parse_timestamp_str` of `1.3_xml_placeholders.py`: try the
`MM:SS-MM:SS` shape first (interpreting both groups as minutes and seconds),
then `HH:MM:SS-HH:MM:SS`; on failure return `(None, None)`. -/
def parse_timestamp_str (ts : String) : Option ℚ × Option ℚ :=
  if ts = "" then (none, none)
  else
    match parsePair parseMMSS ts.data with
    | some (a, b) => (some a, some b)
    | none =>
      match parsePair parseHMS ts.data with
      | some (a, b) => (some a, some b)
      | none => (none, none)

/-- A transcript segment: text with start and end seconds (field `stop` is
the Python dict key "end"). -/
structure Segment where
  text : String
  start : ℚ
  stop : ℚ
deriving DecidableEq, Repr, Inhabited

/-- One raw element of the transcript JSON array, as far as
`load_transcript_json` inspects it: whether it is a dict, its coerced
"text", its numeric "start"/"end" fields if present, and its "timestamp"
string if present (`stop` is the key "end"). -/
structure JItem where
  isDict : Bool
  text : String
  start : Option ℚ
  stop : Option ℚ
  timestamp : Option String
deriving DecidableEq, Repr

/-- Python truthiness of the "timestamp" field: present and non-empty. -/
def tsTruthy : Option String → Bool
  | none => false
  | some t => t ≠ ""

/-- The per-element logic of `load_transcript_json`: skip non-dicts, let a
truthy timestamp overwrite a missing start/end pair, and drop the element
unless both endpoints resolve. -/
def resolveItem (it : JItem) : Option Segment :=
  if it.isDict = false then none
  else
    let se :=
      if tsTruthy it.timestamp ∧ (it.start = none ∨ it.stop = none) then
        parse_timestamp_str (it.timestamp.getD "")
      else (it.start, it.stop)
    match se with
    | (some s, some e) => some ⟨it.text, s, e⟩
    | _ => none

/-- Embeds `load_transcript_json` of `1.3_xml_placeholders.py`: keep the
resolved segments in order, then sort ascending by start (Python's stable
`list.sort(key=start)`). -/
def load_transcript_json (data : List JItem) : List Segment :=
  sortLe (fun a b => decide (a.start ≤ b.start)) (data.filterMap resolveItem)

/-- Embeds `best_match` of `1.3_xml_placeholders.py`: an empty normalized
query answers `(None, 0)`; otherwise every segment's normalized text is
scored (the rapidfuzz scorer abstract, scores in 0..100) and the first
strictly-best index wins, starting from the sentinel score `-1`. -/
def best_match (scorer : String → String → Nat) (phrase : String)
    (segments : List Segment) : Option Nat × Int :=
  let q := clean_text phrase
  if q = "" then (none, 0)
  else
    segments.enum.foldl
      (fun best is =>
        let score : Int := (scorer q (clean_text is.2.text) : Nat)
        if score > best.2 then (some is.1, score) else best)
      ((none : Option Nat), (-1 : Int))

/-- A warning of the alignment loop: no match, or a low-confidence score. -/
inductive Warn where
  | noMatchW (row : Nat) : Warn
  | lowScoreW (row : Nat) (score : Int) : Warn
deriving DecidableEq, Repr

/-- A row of the alignment flow: its table number and the phrase selected
from the chosen column. -/
structure ARow where
  row_number : Nat
  phrase : String
deriving DecidableEq, Repr

/-- One alignment produced by the loop of `main` (lines 525-542): the row,
its phrase, the chosen segment's start and end, and the score. -/
structure Placement where
  row_number : Nat
  text : String
  start : ℚ
  stop : ℚ
  score : Int
deriving DecidableEq, Repr

/-- Embeds the alignment loop of `main` in `1.3_xml_placeholders.py`: a row
with no match index only warns; a matched row records a placement with the
segment's start/end regardless of score, adding a warning when the score is
below the threshold. The loop is total — it never aborts. -/
def alignRows (scorer : String → String → Nat) (threshold : Int)
    (segments : List Segment) : List ARow → List Placement × List Warn
  | [] => ([], [])
  | r :: rest =>
    match best_match scorer r.phrase segments,
        alignRows scorer threshold segments rest with
    | (none, _), (aligns, warns) => (aligns, Warn.noMatchW r.row_number :: warns)
    | (some i, score), (aligns, warns) =>
      let seg := segments.getD i default
      let entry : Placement := ⟨r.row_number, r.phrase, seg.start, seg.stop, score⟩
      if score < threshold then
        (entry :: aligns, Warn.lowScoreW r.row_number score :: warns)
      else (entry :: aligns, warns)

theorem best_match_step_some (scorer : String → String → Nat) (q : String) :
    ∀ (l : List (Nat × Segment)) (acc : Option Nat × Int), acc.1.isSome →
    (l.foldl (fun best is =>
        let score : Int := (scorer q (clean_text is.2.text) : Nat)
        if score > best.2 then (some is.1, score) else best) acc).1.isSome
  | [], _, h => h
  | x :: xs, acc, h => by
    rw [List.foldl_cons]
    apply best_match_step_some scorer q xs
    by_cases hs : ((scorer q (clean_text x.2.text) : Nat) : Int) > acc.2
    · simp only [hs, if_true]
      rfl
    · simp only [hs, if_false]
      exact h

theorem best_match_none_iff (scorer : String → String → Nat) (phrase : String)
    (segments : List Segment) (hseg : segments ≠ []) :
    (best_match scorer phrase segments).1 = none ↔ clean_text phrase = "" := by
  constructor
  · intro h
    by_contra hq
    cases hsegs : segments with
    | nil => exact hseg hsegs
    | cons s ss =>
      rw [hsegs] at h
      simp only [best_match] at h
      rw [if_neg hq, List.enum_cons, List.foldl_cons] at h
      have h2 := best_match_step_some scorer (clean_text phrase)
        (List.enumFrom 1 ss)
        ((fun (best : Option Nat × Int) (is : Nat × Segment) =>
          let score : Int := (scorer (clean_text phrase) (clean_text is.2.text) : Nat)
          if score > best.2 then (some is.1, score) else best)
          ((none : Option Nat), (-1 : Int)) ((0 : Nat), s))
        (by
          show (if ((scorer (clean_text phrase) (clean_text s.text) : Nat) : Int)
                > (-1 : Int)
              then ((some 0 : Option Nat),
                ((scorer (clean_text phrase) (clean_text s.text) : Nat) : Int))
              else ((none : Option Nat), (-1 : Int))).1.isSome
          rw [if_pos]
          · rfl
          · have h0 : (0 : Int)
                ≤ ((scorer (clean_text phrase) (clean_text s.text) : Nat) : Int) :=
              Int.ofNat_nonneg _
            omega)
      rw [h] at h2
      cases h2
  · intro h
    simp only [best_match]
    rw [if_pos h]

theorem alignRows_cons_none (scorer : String → String → Nat) (threshold : Int)
    (segments : List Segment) (r : ARow) (rest : List ARow)
    (score : Int) (aligns : List Placement) (warns : List Warn)
    (hbm : best_match scorer r.phrase segments = (none, score))
    (hrec : alignRows scorer threshold segments rest = (aligns, warns)) :
    alignRows scorer threshold segments (r :: rest)
      = (aligns, Warn.noMatchW r.row_number :: warns) := by
  show (match best_match scorer r.phrase segments,
      alignRows scorer threshold segments rest with
    | (none, _), (aligns, warns) => (aligns, Warn.noMatchW r.row_number :: warns)
    | (some i, score), (aligns, warns) =>
      let seg := segments.getD i default
      let entry : Placement := ⟨r.row_number, r.phrase, seg.start, seg.stop, score⟩
      if score < threshold then
        (entry :: aligns, Warn.lowScoreW r.row_number score :: warns)
      else (entry :: aligns, warns)) = _
  rw [hbm, hrec]

theorem alignRows_cons_some (scorer : String → String → Nat) (threshold : Int)
    (segments : List Segment) (r : ARow) (rest : List ARow)
    (i : Nat) (score : Int) (aligns : List Placement) (warns : List Warn)
    (hbm : best_match scorer r.phrase segments = (some i, score))
    (hrec : alignRows scorer threshold segments rest = (aligns, warns)) :
    alignRows scorer threshold segments (r :: rest)
      = (if score < threshold then
           ((⟨r.row_number, r.phrase, (segments.getD i default).start,
             (segments.getD i default).stop, score⟩ : Placement) :: aligns,
            Warn.lowScoreW r.row_number score :: warns)
         else
           ((⟨r.row_number, r.phrase, (segments.getD i default).start,
             (segments.getD i default).stop, score⟩ : Placement) :: aligns,
            warns)) := by
  show (match best_match scorer r.phrase segments,
      alignRows scorer threshold segments rest with
    | (none, _), (aligns, warns) => (aligns, Warn.noMatchW r.row_number :: warns)
    | (some i, score), (aligns, warns) =>
      let seg := segments.getD i default
      let entry : Placement := ⟨r.row_number, r.phrase, seg.start, seg.stop, score⟩
      if score < threshold then
        (entry :: aligns, Warn.lowScoreW r.row_number score :: warns)
      else (entry :: aligns, warns)) = _
  rw [hbm, hrec]

theorem alignRows_records (scorer : String → String → Nat) (threshold : Int)
    (segments : List Segment) :
    ∀ (rows : List ARow), ∀ r ∈ rows, ∀ (i : Nat) (score : Int),
    best_match scorer r.phrase segments = (some i, score) →
    (⟨r.row_number, r.phrase, (segments.getD i default).start,
        (segments.getD i default).stop, score⟩ : Placement)
      ∈ (alignRows scorer threshold segments rows).1
    ∧ (score < threshold →
        Warn.lowScoreW r.row_number score
          ∈ (alignRows scorer threshold segments rows).2)
  | [], r, hr, _, _, _ => absurd hr (List.not_mem_nil r)
  | r0 :: rest, r, hr, i, score, hbm => by
    cases hrec : alignRows scorer threshold segments rest with
    | mk aligns warns =>
      rcases List.mem_cons.mp hr with hr | hr
      · subst hr
        rw [alignRows_cons_some scorer threshold segments r rest i score
          aligns warns hbm hrec]
        by_cases hlow : score < threshold
        · rw [if_pos hlow]
          exact ⟨List.mem_cons_self _ _, fun _ => List.mem_cons_self _ _⟩
        · rw [if_neg hlow]
          exact ⟨List.mem_cons_self _ _, fun hx => absurd hx hlow⟩
      · obtain ⟨hmem, hwarn⟩ := alignRows_records scorer threshold segments rest
          r hr i score hbm
        rw [hrec] at hmem hwarn
        cases hbm0 : best_match scorer r0.phrase segments with
        | mk io0 score0 =>
          cases io0 with
          | none =>
            rw [alignRows_cons_none scorer threshold segments r0 rest score0
              aligns warns hbm0 hrec]
            exact ⟨hmem, fun hx => List.mem_cons_of_mem _ (hwarn hx)⟩
          | some i0 =>
            rw [alignRows_cons_some scorer threshold segments r0 rest i0 score0
              aligns warns hbm0 hrec]
            by_cases hlow0 : score0 < threshold
            · rw [if_pos hlow0]
              exact ⟨List.mem_cons_of_mem _ hmem,
                fun hx => List.mem_cons_of_mem _ (hwarn hx)⟩
            · rw [if_neg hlow0]
              exact ⟨List.mem_cons_of_mem _ hmem, fun hx => hwarn hx⟩

/-- C6: in the alignment flow (segments are non-empty there — `main` returns
early otherwise), `best_match` yields no index exactly when the row's
normalized phrase is empty; and every row whose `best_match` returns an
index gets a placement carrying the chosen segment's start and end
regardless of score, with a low-score warning recorded exactly when the
score is below the threshold. The loop is a total function, so alignment
never hard-fails. -/
theorem claim_C6_alignment_policy (scorer : String → String → Nat)
    (threshold : Int) (segments : List Segment) (rows : List ARow)
    (hseg : segments ≠ []) :
    (∀ phrase, ((best_match scorer phrase segments).1 = none
      ↔ clean_text phrase = ""))
    ∧ (∀ r ∈ rows, ∀ (i : Nat) (score : Int),
        best_match scorer r.phrase segments = (some i, score) →
        (⟨r.row_number, r.phrase, (segments.getD i default).start,
            (segments.getD i default).stop, score⟩ : Placement)
          ∈ (alignRows scorer threshold segments rows).1
        ∧ (score < threshold →
            Warn.lowScoreW r.row_number score
              ∈ (alignRows scorer threshold segments rows).2)) :=
  ⟨fun phrase => best_match_none_iff scorer phrase segments hseg,
   fun r hr i score hbm =>
     alignRows_records scorer threshold segments rows r hr i score hbm⟩

/-- Witness for C6: one segment list, an exact-matching row placed without a
warning, and the none-iff-empty equivalence at a punctuation-only phrase. -/
theorem claim_C6_witness :
    (((best_match (fun a b => if a = b then 100 else 0) "!!!"
        [⟨"hello, WORLD!", 0, 2⟩, ⟨"goodbye now", 2, 4⟩]).1 = none
      ↔ clean_text "!!!" = ""))
    ∧ ((⟨5, "Hello World",
          (([⟨"hello, WORLD!", 0, 2⟩, ⟨"goodbye now", 2, 4⟩] :
            List Segment).getD 0 default).start,
          (([⟨"hello, WORLD!", 0, 2⟩, ⟨"goodbye now", 2, 4⟩] :
            List Segment).getD 0 default).stop, 100⟩ : Placement)
        ∈ (alignRows (fun a b => if a = b then 100 else 0) 70
            [⟨"hello, WORLD!", 0, 2⟩, ⟨"goodbye now", 2, 4⟩] [⟨5, "Hello World"⟩]).1
      ∧ ((100 : Int) < 70 →
          Warn.lowScoreW 5 100
            ∈ (alignRows (fun a b => if a = b then 100 else 0) 70
              [⟨"hello, WORLD!", 0, 2⟩, ⟨"goodbye now", 2, 4⟩]
              [⟨5, "Hello World"⟩]).2)) :=
  ⟨(claim_C6_alignment_policy (fun a b => if a = b then 100 else 0) 70
      [⟨"hello, WORLD!", 0, 2⟩, ⟨"goodbye now", 2, 4⟩] [⟨5, "Hello World"⟩]
      (by decide)).1 "!!!",
   (claim_C6_alignment_policy (fun a b => if a = b then 100 else 0) 70
      [⟨"hello, WORLD!", 0, 2⟩, ⟨"goodbye now", 2, 4⟩] [⟨5, "Hello World"⟩]
      (by decide)).2 ⟨5, "Hello World"⟩ (by decide) 0 100 (by decide)⟩

theorem length_filterMap_resolveItem : ∀ l : List JItem,
    (l.filterMap resolveItem).length
      = (l.filter (fun it => (resolveItem it).isSome)).length
  | [] => rfl
  | a :: t => by
    rw [List.filterMap_cons, List.filter_cons]
    cases h : resolveItem a with
    | none => simp [h, length_filterMap_resolveItem t]
    | some s => simp [h, length_filterMap_resolveItem t]

/-- C7: transcript loading drops exactly the elements that do not resolve to
both endpoints — in particular an element whose only timing is the
unparsable string "bad-format" — the returned list is sorted ascending by
start, every returned segment comes from a resolving element, and the output
length is the number of resolving elements (so dropping never raises). -/
theorem claim_C7_transcript_loading (data : List JItem) :
    List.Pairwise (fun a b : Segment => a.start ≤ b.start)
      (load_transcript_json data)
    ∧ (∀ seg ∈ load_transcript_json data, ∃ it ∈ data, resolveItem it = some seg)
    ∧ (load_transcript_json data).length
        = (data.filter (fun it => (resolveItem it).isSome)).length
    ∧ parse_timestamp_str "bad-format" = (none, none)
    ∧ resolveItem ⟨true, "x", none, none, some "bad-format"⟩ = none := by
  have htrans : ∀ a b c : Segment, decide (a.start ≤ b.start) = true →
      decide (b.start ≤ c.start) = true → decide (a.start ≤ c.start) = true := by
    intro a b c hab hbc
    simp only [decide_eq_true_eq] at *
    exact le_trans hab hbc
  have htotal : ∀ a b : Segment,
      (decide (a.start ≤ b.start) || decide (b.start ≤ a.start)) = true := by
    intro a b
    simp only [Bool.or_eq_true, decide_eq_true_eq]
    exact le_total a.start b.start
  refine ⟨?_, ?_, ?_, by decide, by decide⟩
  · exact (sortLe_pairwise _ htrans htotal (data.filterMap resolveItem)).imp
      (fun h => of_decide_eq_true h)
  · intro seg hseg
    have hmem : seg ∈ data.filterMap resolveItem :=
      (sortLe_perm _ (data.filterMap resolveItem)).mem_iff.mp hseg
    obtain ⟨it, hit, heq⟩ := List.mem_filterMap.mp hmem
    exact ⟨it, hit, heq⟩
  · rw [show load_transcript_json data
        = sortLe (fun a b => decide (a.start ≤ b.start))
          (data.filterMap resolveItem) from rfl]
    rw [(sortLe_perm _ (data.filterMap resolveItem)).length_eq]
    exact length_filterMap_resolveItem data

/-- Witness for C7 at a concrete transcript with out-of-order segments and a
"bad-format" element that is dropped. -/
theorem claim_C7_witness :
    List.Pairwise (fun a b : Segment => a.start ≤ b.start)
      (load_transcript_json
        [⟨true, "b", some 20, some 25, none⟩,
         ⟨true, "a", some 10, some 15, none⟩,
         ⟨true, "bad", none, none, some "bad-format"⟩])
    ∧ (∃ it ∈ [⟨true, "b", some 20, some 25, none⟩,
         ⟨true, "a", some 10, some 15, none⟩,
         (⟨true, "bad", none, none, some "bad-format"⟩ : JItem)],
        resolveItem it = some ⟨"b", 20, 25⟩)
    ∧ (load_transcript_json
        [⟨true, "b", some 20, some 25, none⟩,
         ⟨true, "a", some 10, some 15, none⟩,
         ⟨true, "bad", none, none, some "bad-format"⟩]).length
      = ([⟨true, "b", some 20, some 25, none⟩,
         ⟨true, "a", some 10, some 15, none⟩,
         (⟨true, "bad", none, none, some "bad-format"⟩ : JItem)].filter
          (fun it => (resolveItem it).isSome)).length :=
  ⟨(claim_C7_transcript_loading _).1,
   (claim_C7_transcript_loading
      [⟨true, "b", some 20, some 25, none⟩,
       ⟨true, "a", some 10, some 15, none⟩,
       ⟨true, "bad", none, none, some "bad-format"⟩]).2.1
     ⟨"b", 20, 25⟩ (by decide),
   (claim_C7_transcript_loading _).2.2.1⟩
